import Mathlib

/-!
# Verification of the edge-scanner matching core

Shallow embedding of the repository code (src/matcher.py, src/oddsapi.py and the
scan logic of src/app.py) together with proofs about the claims of its design
specification.  Python floats are modelled as exact rationals, Python strings as
`List Char` (or `String` at the interfaces), Python dicts as association lists
with first-insertion key order and last-wins values.

The similarity primitive of matcher.py is `difflib.SequenceMatcher(None, a, b).ratio()`
from the Python standard library; it is embedded here faithfully, including the
autojunk heuristic (elements occurring in more than 1 percent of the second
string are dropped from the index when that string has at least 200 elements)
and the greedy extension loops of `find_longest_match` (with the junk set empty,
as the source passes `isjunk=None`).
-/

namespace EdgeScanner

/-- Python whitespace characters recognised by `str.strip()` (ASCII subset). -/
def isPySpace (c : Char) : Bool :=
  c == ' ' || c == '\t' || c == '\n' || c == '\r' || c == '\x0b' || c == '\x0c'

/-- ASCII lower-casing of one character, as `str.lower()` acts on ASCII text. -/
def pyLowerChar (c : Char) : Char :=
  if 'A' ≤ c ∧ c ≤ 'Z' then Char.ofNat (c.toNat + 32) else c

/-- `s.lower()` on the character list of a string. -/
def pyLower (s : List Char) : List Char := s.map pyLowerChar

/-- `s.strip()`: remove leading and trailing whitespace. -/
def pyStrip (s : List Char) : List Char :=
  ((s.dropWhile isPySpace).reverse.dropWhile isPySpace).reverse

/-! ## difflib.SequenceMatcher

`b2jOf b c` is the list of positions of `c` in `b`, in increasing order, with
popular characters purged exactly as `SequenceMatcher.__chain_b` does when
`autojunk` is on and `isjunk` is `None`. -/

/-- Positions of a character in a string, ascending. -/
def positionsOf (b : List Char) (c : Char) : List Nat :=
  (List.range b.length).filter (fun i => b.getD i ' ' == c)

/-- The `b2j` index of `SequenceMatcher` with `isjunk = None`:
popular elements are purged when `len(b) >= 200`. -/
def b2jOf (b : List Char) (c : Char) : List Nat :=
  let ps := positionsOf b c
  if 200 ≤ b.length ∧ b.length / 100 + 1 < ps.length then [] else ps

/-- Positions of the `b2j` index usable for a region: `blo <= j < bhi`
(the `continue`/`break` tests of the inner loop of `find_longest_match`). -/
def jsFor (b2j : Char → List Nat) (c : Char) (blo bhi : Nat) : List Nat :=
  (b2j c).filter (fun j => decide (blo ≤ j) && decide (j < bhi))

/-- State of `find_longest_match`: the best block found so far. -/
structure FLM where
  besti : Nat
  bestj : Nat
  bestsize : Nat
  deriving DecidableEq

/-- Lookup in the `j2len` association list, defaulting to 0 (`j2len.get(j-1, 0)`). -/
def lookupJ (l : List (Nat × Nat)) (j : Nat) : Nat :=
  match l.find? (fun p => p.1 == j) with
  | some p => p.2
  | none => 0

/-- Inner loop of `find_longest_match` over one row `i`: for each position `j`
of `a[i]` within the region, the new chain length is `j2len.get(j-1, 0) + 1`
(`j - 1` falling outside any key when `j = 0`, as in Python where it is `-1`),
and the best block is updated on a strictly larger size. Returns the new
`j2len` row and the updated best block. -/
def flmInner (prev : List (Nat × Nat)) (i : Nat) :
    List Nat → FLM → List (Nat × Nat) × FLM
  | [], st => ([], st)
  | j :: js, st =>
    let k := (if j = 0 then 0 else lookupJ prev (j - 1)) + 1
    let st' := if st.bestsize < k then ⟨i + 1 - k, j + 1 - k, k⟩ else st
    let r := flmInner prev i js st'
    ((j, k) :: r.1, r.2)

/-- Outer loop of `find_longest_match` over the rows `alo, ..., ahi - 1`. -/
def flmRows (a : List Char) (b2j : Char → List Nat) (blo bhi : Nat) :
    List Nat → List (Nat × Nat) → FLM → FLM
  | [], _, st => st
  | i :: is, prev, st =>
    let r := flmInner prev i (jsFor b2j (a.getD i ' ') blo bhi) st
    flmRows a b2j blo bhi is r.1 r.2

/-- Backward extension loop of `find_longest_match` (the junk set is empty, so
only the plain-equality loop can fire).  The first argument is fuel; since
each step moves `besti` down by one and stops at `alo`, fuel `besti` always
suffices, and at fuel 0 the loop guard is false anyway at the call sites. -/
def extendBack (a b : List Char) (alo blo : Nat) :
    Nat → Nat → Nat → Nat → Nat × Nat × Nat
  | 0, besti, bestj, k => (besti, bestj, k)
  | fuel + 1, besti, bestj, k =>
    if alo < besti ∧ blo < bestj ∧
        a.getD (besti - 1) ' ' = b.getD (bestj - 1) ' ' then
      extendBack a b alo blo fuel (besti - 1) (bestj - 1) (k + 1)
    else
      (besti, bestj, k)

/-- Forward extension loop of `find_longest_match`; fuelled like `extendBack`,
with each step moving `besti + k` up towards `ahi`, so fuel `ahi` suffices. -/
def extendFwd (a b : List Char) (ahi bhi : Nat) : Nat → Nat → Nat → Nat → Nat
  | 0, _, _, k => k
  | fuel + 1, besti, bestj, k =>
    if besti + k < ahi ∧ bestj + k < bhi ∧
        a.getD (besti + k) ' ' = b.getD (bestj + k) ' ' then
      extendFwd a b ahi bhi fuel besti bestj (k + 1)
    else
      k

/-- `SequenceMatcher.find_longest_match` on the region `[alo, ahi) x [blo, bhi)`
with empty junk set. -/
def findLongestMatch (a b : List Char) (b2j : Char → List Nat)
    (alo ahi blo bhi : Nat) : FLM :=
  let st := flmRows a b2j blo bhi (List.range' alo (ahi - alo)) [] ⟨alo, blo, 0⟩
  let e := extendBack a b alo blo st.besti st.besti st.bestj st.bestsize
  ⟨e.1, e.2.1, extendFwd a b ahi bhi ahi e.1 e.2.1 e.2.2⟩

/-- Total size of the matching blocks of `get_matching_blocks` (the quantity
summed by `ratio`), computed by the same region recursion as the queue-based
loop of the source.  `fuel` bounds the recursion depth; any value of at least
`(ahi - alo) + (bhi - blo)` is enough. -/
def matchSum (a b : List Char) (b2j : Char → List Nat) :
    Nat → Nat → Nat → Nat → Nat → Nat
  | 0, _, _, _, _ => 0
  | fuel + 1, alo, ahi, blo, bhi =>
    let m := findLongestMatch a b b2j alo ahi blo bhi
    if m.bestsize = 0 then 0
    else
      m.bestsize + matchSum a b b2j fuel alo m.besti blo m.bestj
        + matchSum a b b2j fuel (m.besti + m.bestsize) ahi (m.bestj + m.bestsize) bhi

/-- `SequenceMatcher(None, a, b).ratio()`: twice the total matched length over
the combined length, and 1 on two empty sequences (`_calculate_ratio`). -/
def ratioVal (a b : List Char) : ℚ :=
  if a.length + b.length = 0 then 1
  else 2 * (matchSum a b (b2jOf b) (a.length + b.length) 0 a.length 0 b.length : ℚ)
        / (a.length + b.length : ℕ)

/-- `_sim(a, b)` of matcher.py: the ratio of the lower-cased, stripped strings. -/
def sim (a b : String) : ℚ :=
  ratioVal (pyStrip (pyLower a.data)) (pyStrip (pyLower b.data))

/-! ## Data model (spec section 3) -/

/-- A prediction-market record (source A), as built by polymarket.py. -/
structure MarketRecord where
  question : String
  outcomes : List String
  probabilities : List ℚ
  liquidity : ℚ
  volume : ℚ
  days_to_end : Option Int
  url : String
  deriving DecidableEq

/-- One bookmaker outcome: a runner name and a decimal-odds price. -/
structure BmOutcome where
  name : String
  price : ℚ
  deriving DecidableEq

/-- One bookmaker market, keyed by a market-type tag (`"h2h"` or `"outrights"`). -/
structure BmMarket where
  key : String
  outcomes : List BmOutcome
  deriving DecidableEq

/-- One bookmaker inside an odds event. -/
structure Bookmaker where
  title : String
  markets : List BmMarket
  deriving DecidableEq

/-- A bookmaker event (source B), as returned by The Odds API client. -/
structure OddsEvent where
  sport_title : String
  home_team : String
  away_team : String
  bookmakers : List Bookmaker
  deriving DecidableEq

/-- An edge signal, one row of the `alerts` list of `_run_scan`. -/
structure Alert where
  question : String
  outcome : String
  poly_prob : ℚ
  bookie_prob : ℚ
  decimal_odds : ℚ
  delta : ℚ
  bookmaker : String
  match_score : ℚ
  liquidity : ℚ
  volume : ℚ
  days_to_end : Option Int
  url : String
  deriving DecidableEq

/-! ## matcher.py -/

/-- Left-to-right non-overlapping replacement of two spaces by one, as the
single `replace("  ", " ")` pass of `_clean` behaves. -/
def collapseDouble : List Char → List Char
  | ' ' :: ' ' :: rest => ' ' :: collapseDouble rest
  | c :: rest => c :: collapseDouble rest
  | [] => []

/-- `_clean(text)`: lower-case, remove `.` and `,`, collapse double spaces, strip. -/
def clean (text : String) : String :=
  ⟨pyStrip (collapseDouble (((pyLower text.data).filter (· ≠ '.')).filter (· ≠ ',')))⟩

/-- `_event_text(event)`: space-joined composite of title, home and away labels,
skipping empty fields (`" ".join(filter(None, ...))`). -/
def event_text (event : OddsEvent) : String :=
  String.intercalate " "
    (([event.sport_title, event.home_team, event.away_team]).filter (· ≠ ""))

/-- `startsWithCh p s`: `p` is a prefix of `s`. -/
def startsWithCh : List Char → List Char → Bool
  | [], _ => true
  | _ :: _, [] => false
  | p :: ps, c :: cs => p == c && startsWithCh ps cs

/-- The Python substring test `pat in s` on character lists. -/
def isSub (pat : List Char) : List Char → Bool
  | [] => startsWithCh pat []
  | c :: rest => startsWithCh pat (c :: rest) || isSub pat rest

/-- Case-insensitive substring test `x.lower() in y.lower()`. -/
def lowerInfix (x y : String) : Bool :=
  isSub (pyLower x.data) (pyLower y.data)

/-- The score `find_best_event` assigns to one event: the maximum of the four
similarities, plus 0.12 when some outcome label longer than 3 characters occurs
case-insensitively in the composite text. -/
def eventScore (pm : MarketRecord) (event : OddsEvent) : ℚ :=
  let text := event_text event
  let base := max (max (max (sim pm.question text) (sim pm.question event.home_team))
      (sim pm.question event.away_team)) (sim pm.question event.sport_title)
  if pm.outcomes.any (fun o => decide (3 < o.length) && lowerInfix o text) then
    base + 12/100
  else
    base

/-- The best-tracking loop of `find_best_event`. -/
def fbeAux (pm : MarketRecord) :
    List OddsEvent → Option OddsEvent × ℚ → Option OddsEvent × ℚ
  | [], st => st
  | e :: evs, st =>
    let score := eventScore pm e
    fbeAux pm evs (if st.2 < score then (some e, score) else st)

/-- `find_best_event(poly_market, odds_events, threshold)` of matcher.py. -/
def find_best_event (pm : MarketRecord) (odds_events : List OddsEvent)
    (threshold : ℚ) : Option OddsEvent × ℚ :=
  let st := fbeAux pm odds_events (none, 0)
  if threshold ≤ st.2 then st else (none, 0)

/-- The best-tracking loop of `find_matching_outcome`. -/
def fmoAux (poly_outcome : String) :
    List BmOutcome → Option String × ℚ → Option String × ℚ
  | [], st => st
  | o :: os, st =>
    let s := sim poly_outcome o.name
    fmoAux poly_outcome os (if st.2 < s then (some o.name, s) else st)

/-- `find_matching_outcome(poly_outcome, bm_outcomes, threshold)` of matcher.py.
The acceptance test `if best_name:` is Python truthiness: `None` and the empty
string are both rejected. The price is the one of the first outcome whose name
equals the best name (`next(...)`), `none` when no such outcome exists. -/
def find_matching_outcome (poly_outcome : String) (bm_outcomes : List BmOutcome)
    (threshold : ℚ) : Option String × Option ℚ :=
  let st := fmoAux poly_outcome bm_outcomes (none, 0)
  if threshold ≤ st.2 ∨ (⟨pyLower poly_outcome.data⟩ : String) ∈ ["yes", "no"] then
    match st.1 with
    | some n =>
      if n ≠ "" then (some n, (bm_outcomes.find? (fun o => o.name == n)).map (·.price))
      else (none, none)
    | none => (none, none)
  else
    (none, none)

/-- `list.index(x)` of Python: index of the first occurrence. -/
def pyIndex (x : String) : List String → Nat
  | [] => 0
  | y :: t => if y == x then 0 else pyIndex x t + 1

/-- Helper of `pySplit`: accumulates the current word (reversed). -/
def pySplitAux : List Char → List Char → List String
  | [], acc => if acc = [] then [] else [⟨acc.reverse⟩]
  | c :: rest, acc =>
    if isPySpace c then
      if acc = [] then pySplitAux rest []
      else ⟨acc.reverse⟩ :: pySplitAux rest []
    else
      pySplitAux rest (c :: acc)

/-- `s.split()` of Python with no separator: words between whitespace runs,
empty strings discarded. -/
def pySplit (s : List Char) : List String := pySplitAux s []

/-- The per-record score of `find_poly_for_candidate`: maximum of the verbatim
token-hit fraction and the fuzzy similarity, on cleaned strings. -/
def polyScore (candidate_name : String) (pm : MarketRecord) : ℚ :=
  let candidate_clean := clean candidate_name
  let name_parts := (pySplit candidate_clean.data).filter (fun w => 1 < w.length)
  let q_clean := clean pm.question
  let parts_hit := (name_parts.filter (fun p => isSub p.data q_clean.data)).length
  let part_ratio : ℚ := if name_parts ≠ [] then (parts_hit : ℚ) / (name_parts.length : ℚ) else 0
  max (sim candidate_clean q_clean) part_ratio

/-- The best-tracking loop of `find_poly_for_candidate`: the state only advances
on a strictly larger score, and only for records that contain `"Yes"` among
their outcomes at an index that has a probability. -/
def fpcAux (candidate_name : String) :
    List MarketRecord → Option MarketRecord × Option ℚ × ℚ →
      Option MarketRecord × Option ℚ × ℚ
  | [], st => st
  | pm :: pms, st =>
    let score := polyScore candidate_name pm
    let st' :=
      if st.2.2 < score then
        if pm.outcomes.contains "Yes" then
          let yes_idx := pyIndex "Yes" pm.outcomes
          if yes_idx < pm.probabilities.length then
            (some pm, some (pm.probabilities.getD yes_idx 0), score)
          else st
        else st
      else st
    fpcAux candidate_name pms st'

/-- `find_poly_for_candidate(candidate_name, poly_markets, threshold)` of matcher.py. -/
def find_poly_for_candidate (candidate_name : String)
    (poly_markets : List MarketRecord) (threshold : ℚ) :
    Option MarketRecord × Option ℚ :=
  let st := fpcAux candidate_name poly_markets (none, none, 0)
  if threshold ≤ st.2.2 ∧ st.1 ≠ none then (st.1, st.2.1) else (none, none)

/-! ## oddsapi.py: fair probabilities -/

/-- Python-dict insertion: an existing key keeps its position and takes the new
value, a new key is appended. -/
def dictInsert (d : List (String × ℚ)) (k : String) (v : ℚ) : List (String × ℚ) :=
  if d.any (fun p => p.1 == k) then
    d.map (fun p => if p.1 == k then (k, v) else p)
  else
    d ++ [(k, v)]

/-- Lookup with default, `d.get(k, dflt)`. -/
def dictGet (d : List (String × ℚ)) (k : String) (dflt : ℚ) : ℚ :=
  match d.find? (fun p => p.1 == k) with
  | some p => p.2
  | none => dflt

/-- The raw implied-probability dict `{o["name"]: 1/price if price > 1 else 0}`. -/
def rawDict (outcomes : List BmOutcome) : List (String × ℚ) :=
  outcomes.foldl (fun d o => dictInsert d o.name (if 1 < o.price then 1 / o.price else 0)) []

/-- `fair_probabilities(outcomes)` of oddsapi.py. -/
def fair_probabilities (outcomes : List BmOutcome) : List (String × ℚ) :=
  let raw := rawDict outcomes
  let total := (raw.map (·.2)).sum
  if 0 < total then raw.map (fun p => (p.1, p.2 / total)) else raw

/-! ## app.py: the core scan (`_run_scan` after fetching, spec `runScan`) -/

/-- Pass-1 emission for one record outcome at index `i` of `pm.outcomes`:
skips indices with no probability, then runs the outcome matcher and drops
pairings whose name or odds are falsy (`if not bm_out or not dec_odds`). -/
def pass1Row (pm : MarketRecord) (match_score : ℚ) (bm_name : String)
    (fair : List (String × ℚ)) (mkt_outcomes : List BmOutcome)
    (i : Nat) (outcome : String) : Option Alert :=
  if pm.probabilities.length ≤ i then none
  else
    let poly_prob := pm.probabilities.getD i 0
    match find_matching_outcome outcome mkt_outcomes (38/100) with
    | (some bm_out, some dec_odds) =>
      if bm_out = "" ∨ dec_odds = 0 then none
      else
        let bookie_prob := dictGet fair bm_out 0
        some
          { question := pm.question
            outcome := outcome
            poly_prob := poly_prob
            bookie_prob := bookie_prob
            decimal_odds := dec_odds
            delta := poly_prob - bookie_prob
            bookmaker := bm_name
            match_score := match_score
            liquidity := pm.liquidity
            volume := pm.volume
            days_to_end := pm.days_to_end
            url := pm.url }
    | _ => none

/-- Pass 1 of `_run_scan`: h2h markets of the best event of each record. -/
def pass1Alerts (poly_mkts : List MarketRecord) (odds_events : List OddsEvent) :
    List Alert :=
  poly_mkts.flatMap (fun pm =>
    match find_best_event pm odds_events (28/100) with
    | (none, _) => []
    | (some event, match_score) =>
      event.bookmakers.flatMap (fun bookmaker =>
        bookmaker.markets.flatMap (fun mkt =>
          if mkt.key ≠ "h2h" then []
          else
            let fair := fair_probabilities mkt.outcomes
            pm.outcomes.enum.filterMap (fun p =>
              pass1Row pm match_score bookmaker.title fair mkt.outcomes p.1 p.2))))

/-- Pass 2 of `_run_scan`: outright markets matched back to binary records. -/
def pass2Alerts (poly_mkts : List MarketRecord) (odds_events : List OddsEvent) :
    List Alert :=
  odds_events.flatMap (fun event =>
    event.bookmakers.flatMap (fun bookmaker =>
      bookmaker.markets.flatMap (fun mkt =>
        if mkt.key ≠ "outrights" then []
        else
          let fair := fair_probabilities mkt.outcomes
          mkt.outcomes.filterMap (fun bm_outcome =>
            let candidate := bm_outcome.name
            let dec_odds := bm_outcome.price
            let bookie_fair_prob := dictGet fair candidate 0
            match find_poly_for_candidate candidate poly_mkts (40/100) with
            | (some poly_market, some poly_prob) =>
              some
                { question := poly_market.question
                  outcome := "Yes"
                  poly_prob := poly_prob
                  bookie_prob := bookie_fair_prob
                  decimal_odds := dec_odds
                  delta := poly_prob - bookie_fair_prob
                  bookmaker := bookmaker.title
                  match_score := 9/10
                  liquidity := poly_market.liquidity
                  volume := poly_market.volume
                  days_to_end := poly_market.days_to_end
                  url := poly_market.url }
            | _ => none))))

/-- The deduplication key `(question, outcome, bookmaker)` of a signal. -/
def alertKey (a : Alert) : String × String × String :=
  (a.question, a.outcome, a.bookmaker)

/-- Stable insertion into a list sorted by descending `|delta|`: the new
element goes before the first element whose `|delta|` does not exceed its own,
hence before older equal-magnitude elements only when strictly larger. -/
def insertByAbsDelta (a : Alert) : List Alert → List Alert
  | [] => [a]
  | b :: t => if |b.delta| ≤ |a.delta| then a :: b :: t else b :: insertByAbsDelta a t

/-- The stable descending sort `alerts.sort(key=lambda x: abs(x["delta"]), reverse=True)`. -/
def sortByAbsDelta (l : List Alert) : List Alert :=
  l.foldr insertByAbsDelta []

/-- The `seen`/`unique` deduplication loop of `_run_scan`, written with the
accumulators of the source. -/
def pyDedup : List (String × String × String) → List Alert → List Alert → List Alert
  | _, acc, [] => acc
  | seen, acc, a :: rest =>
    if alertKey a ∈ seen then pyDedup seen acc rest
    else pyDedup (alertKey a :: seen) (acc ++ [a]) rest

/-- The core scan over already-fetched collections: both passes, then the
global sort by descending `|delta|` and first-occurrence deduplication by
`(question, outcome, bookmaker)`. -/
def runScan (poly_mkts : List MarketRecord) (odds_events : List OddsEvent) :
    List Alert :=
  pyDedup [] [] (sortByAbsDelta (pass1Alerts poly_mkts odds_events
    ++ pass2Alerts poly_mkts odds_events))

/-! ## Wellformedness of `find_longest_match` and bounds of `ratio` -/

/-- Wellformed best-block states: the initial sentinel, or a block inside the
region. -/
def stWF (alo ahi blo bhi : Nat) (st : FLM) : Prop :=
  st = ⟨alo, blo, 0⟩ ∨
    (alo ≤ st.besti ∧ blo ≤ st.bestj ∧ 1 ≤ st.bestsize ∧
      st.besti + st.bestsize ≤ ahi ∧ st.bestj + st.bestsize ≤ bhi)

/-- Row-entry invariant: each `j2len` entry of the row before row `r` has a
positive value bounded by the distances to the region edges (`p.2 + alo ≤ r`,
with the chain having started no earlier than `alo`). -/
def rowWF (alo blo bhi r : Nat) (l : List (Nat × Nat)) : Prop :=
  ∀ p ∈ l, 1 ≤ p.2 ∧ blo ≤ p.1 ∧ p.1 < bhi ∧ p.2 + blo ≤ p.1 + 1 ∧ p.2 + alo ≤ r

lemma lookupJ_cases (l : List (Nat × Nat)) (j : Nat) :
    lookupJ l j = 0 ∨ ∃ p ∈ l, p.1 = j ∧ p.2 = lookupJ l j := by
  unfold lookupJ
  cases h : l.find? (fun p => p.1 == j) with
  | none => exact Or.inl rfl
  | some p =>
    refine Or.inr ⟨p, List.mem_of_find?_eq_some h, ?_, rfl⟩
    have := List.find?_some h
    simpa using this

lemma flmInner_wf {alo ahi blo bhi : Nat} (prev : List (Nat × Nat)) (i : Nat)
    (hi : alo ≤ i) (hi2 : i < ahi)
    (hprev : rowWF alo blo bhi i prev) :
    ∀ js st, (∀ j ∈ js, blo ≤ j ∧ j < bhi) → stWF alo ahi blo bhi st →
      rowWF alo blo bhi (i + 1) (flmInner prev i js st).1 ∧
        stWF alo ahi blo bhi (flmInner prev i js st).2 := by
  intro js
  induction js with
  | nil => intro st _ hst; exact ⟨fun p hp => absurd hp (List.not_mem_nil p), hst⟩
  | cons j js ih =>
    intro st hjs hst
    have hj : blo ≤ j ∧ j < bhi := hjs j (List.mem_cons_self j js)
    have hk : ∃ v, (if j = 0 then 0 else lookupJ prev (j - 1)) = v ∧
        v + blo ≤ j ∧ v + alo ≤ i := by
      by_cases h0 : j = 0
      · exact ⟨0, if_pos h0, by omega, by omega⟩
      · refine ⟨lookupJ prev (j - 1), if_neg h0, ?_, ?_⟩
        · rcases lookupJ_cases prev (j - 1) with h | ⟨p, hp, hp1, hp2⟩
          · omega
          · have := hprev p hp
            omega
        · rcases lookupJ_cases prev (j - 1) with h | ⟨p, hp, hp1, hp2⟩
          · omega
          · have := hprev p hp
            omega
    obtain ⟨v, hv, hvb, hva⟩ := hk
    simp only [flmInner, hv]
    have hst' : stWF alo ahi blo bhi
        (if st.bestsize < v + 1 then ⟨i + 1 - (v + 1), j + 1 - (v + 1), v + 1⟩ else st) := by
      by_cases hlt : st.bestsize < v + 1
      · rw [if_pos hlt]
        right
        dsimp only
        omega
      · rw [if_neg hlt]; exact hst
    have := ih (if st.bestsize < v + 1 then ⟨i + 1 - (v + 1), j + 1 - (v + 1), v + 1⟩ else st)
      (fun j' hj' => hjs j' (List.mem_cons_of_mem j hj')) hst'
    refine ⟨?_, this.2⟩
    intro p hp
    rcases List.mem_cons.1 hp with rfl | hp'
    · exact ⟨by omega, hj.1, hj.2, by omega, by omega⟩
    · exact this.1 p hp'

lemma flmRows_wf {a : List Char} {b2j : Char → List Nat} {alo ahi blo bhi : Nat} :
    ∀ n lo prev st, alo ≤ lo → lo + n ≤ ahi →
      rowWF alo blo bhi lo prev → stWF alo ahi blo bhi st →
      stWF alo ahi blo bhi (flmRows a b2j blo bhi (List.range' lo n) prev st) := by
  intro n
  induction n with
  | zero => intro lo prev st _ _ _ hst; exact hst
  | succ n ih =>
    intro lo prev st hlo hhi hprev hst
    rw [List.range'_succ]
    simp only [flmRows]
    have hjs : ∀ j ∈ jsFor b2j (a.getD lo ' ') blo bhi, blo ≤ j ∧ j < bhi := by
      intro j hj
      have := List.of_mem_filter hj
      simp only [Bool.and_eq_true, decide_eq_true_eq] at this
      exact this
    have h1 := flmInner_wf prev lo hlo (by omega) hprev
      (jsFor b2j (a.getD lo ' ') blo bhi) st hjs hst
    exact ih (lo + 1) _ _ (by omega) (by omega) (by simpa using h1.1) h1.2

lemma extendBack_spec (a b : List Char) (alo blo : Nat) :
    ∀ fuel besti bestj k, alo ≤ besti → blo ≤ bestj →
      alo ≤ (extendBack a b alo blo fuel besti bestj k).1 ∧
      blo ≤ (extendBack a b alo blo fuel besti bestj k).2.1 ∧
      (extendBack a b alo blo fuel besti bestj k).1 +
        (extendBack a b alo blo fuel besti bestj k).2.2 = besti + k ∧
      (extendBack a b alo blo fuel besti bestj k).2.1 +
        (extendBack a b alo blo fuel besti bestj k).2.2 = bestj + k := by
  intro fuel
  induction fuel with
  | zero => intro besti bestj k h1 h2; exact ⟨h1, h2, rfl, rfl⟩
  | succ fuel ih =>
    intro besti bestj k h1 h2
    simp only [extendBack]
    by_cases h : alo < besti ∧ blo < bestj ∧
        a.getD (besti - 1) ' ' = b.getD (bestj - 1) ' '
    · rw [if_pos h]
      have := ih (besti - 1) (bestj - 1) (k + 1) (by omega) (by omega)
      refine ⟨this.1, this.2.1, by omega, by omega⟩
    · rw [if_neg h]
      exact ⟨h1, h2, rfl, rfl⟩

lemma extendFwd_spec (a b : List Char) (ahi bhi : Nat) :
    ∀ fuel besti bestj k, (k ≠ 0 → besti + k ≤ ahi ∧ bestj + k ≤ bhi) →
      k ≤ extendFwd a b ahi bhi fuel besti bestj k ∧
      (extendFwd a b ahi bhi fuel besti bestj k ≠ 0 →
        besti + extendFwd a b ahi bhi fuel besti bestj k ≤ ahi ∧
        bestj + extendFwd a b ahi bhi fuel besti bestj k ≤ bhi) := by
  intro fuel
  induction fuel with
  | zero => intro besti bestj k hk; exact ⟨le_refl k, hk⟩
  | succ fuel ih =>
    intro besti bestj k hk
    simp only [extendFwd]
    by_cases h : besti + k < ahi ∧ bestj + k < bhi ∧
        a.getD (besti + k) ' ' = b.getD (bestj + k) ' '
    · rw [if_pos h]
      have := ih besti bestj (k + 1) (by omega)
      exact ⟨le_trans (Nat.le_succ k) this.1, this.2⟩
    · rw [if_neg h]
      exact ⟨le_refl k, hk⟩

/-- The block returned by `find_longest_match` lies inside the region. -/
lemma findLongestMatch_wf (a b : List Char) (b2j : Char → List Nat)
    (alo ahi blo bhi : Nat) :
    alo ≤ (findLongestMatch a b b2j alo ahi blo bhi).besti ∧
    blo ≤ (findLongestMatch a b b2j alo ahi blo bhi).bestj ∧
    ((findLongestMatch a b b2j alo ahi blo bhi).bestsize ≠ 0 →
      (findLongestMatch a b b2j alo ahi blo bhi).besti +
        (findLongestMatch a b b2j alo ahi blo bhi).bestsize ≤ ahi ∧
      (findLongestMatch a b b2j alo ahi blo bhi).bestj +
        (findLongestMatch a b b2j alo ahi blo bhi).bestsize ≤ bhi) := by
  have hrows : stWF alo ahi blo bhi
      (flmRows a b2j blo bhi (List.range' alo (ahi - alo)) [] ⟨alo, blo, 0⟩) := by
    by_cases hcmp : alo ≤ ahi
    · exact flmRows_wf (ahi - alo) alo [] ⟨alo, blo, 0⟩ (le_refl alo) (by omega)
        (fun p hp => absurd hp (List.not_mem_nil p)) (Or.inl rfl)
    · have h0 : ahi - alo = 0 := by omega
      rw [h0]
      exact Or.inl rfl
  simp only [findLongestMatch]
  generalize hstg : flmRows a b2j blo bhi (List.range' alo (ahi - alo)) [] ⟨alo, blo, 0⟩ = st at hrows ⊢
  have hstb : alo ≤ st.besti ∧ blo ≤ st.bestj := by
    rcases hrows with h | h
    · rw [h]
      exact ⟨le_refl _, le_refl _⟩
    · exact ⟨h.1, h.2.1⟩
  have hb := extendBack_spec a b alo blo st.besti st.besti st.bestj st.bestsize hstb.1 hstb.2
  generalize heg : extendBack a b alo blo st.besti st.besti st.bestj st.bestsize = e at hb ⊢
  have hfpre : e.2.2 ≠ 0 → e.1 + e.2.2 ≤ ahi ∧ e.2.1 + e.2.2 ≤ bhi := by
    intro hne
    rcases hrows with h | h
    · rw [h] at hb
      dsimp only at hb
      omega
    · omega
  have hf := extendFwd_spec a b ahi bhi ahi e.1 e.2.1 e.2.2 hfpre
  exact ⟨hb.1, hb.2.1, fun hne => hf.2 hne⟩

/-- The total matched size never exceeds either region width. -/
lemma matchSum_le (a b : List Char) (b2j : Char → List Nat) :
    ∀ fuel alo ahi blo bhi,
      matchSum a b b2j fuel alo ahi blo bhi ≤ min (ahi - alo) (bhi - blo) := by
  intro fuel
  induction fuel with
  | zero => intro alo ahi blo bhi; simp [matchSum]
  | succ fuel ih =>
    intro alo ahi blo bhi
    simp only [matchSum]
    set m := findLongestMatch a b b2j alo ahi blo bhi with hmdef
    by_cases h0 : m.bestsize = 0
    · rw [if_pos h0]; omega
    · rw [if_neg h0]
      have hwf := findLongestMatch_wf a b b2j alo ahi blo bhi
      rw [← hmdef] at hwf
      have hbounds := hwf.2.2 h0
      have h1 := ih alo m.besti blo m.bestj
      have h2 := ih (m.besti + m.bestsize) ahi (m.bestj + m.bestsize) bhi
      omega

lemma ratioVal_nonneg (a b : List Char) : 0 ≤ ratioVal a b := by
  unfold ratioVal
  by_cases h : a.length + b.length = 0
  · rw [if_pos h]; norm_num
  · rw [if_neg h]
    apply div_nonneg
    · positivity
    · exact_mod_cast Nat.zero_le _

lemma ratioVal_le_one (a b : List Char) : ratioVal a b ≤ 1 := by
  unfold ratioVal
  by_cases h : a.length + b.length = 0
  · rw [if_pos h]
  · rw [if_neg h]
    rw [div_le_one (by exact_mod_cast Nat.pos_of_ne_zero h)]
    have hM := matchSum_le a b (b2jOf b) (a.length + b.length) 0 a.length 0 b.length
    have : 2 * matchSum a b (b2jOf b) (a.length + b.length) 0 a.length 0 b.length ≤
        a.length + b.length := by omega
    exact_mod_cast this

lemma sim_nonneg (a b : String) : 0 ≤ sim a b := ratioVal_nonneg _ _

lemma sim_le_one (a b : String) : sim a b ≤ 1 := ratioVal_le_one _ _

/-! ## The ratio of a sequence with itself is 1

On two equal sequences, the best block recorded by the main loop of
`find_longest_match` always lies on the diagonal: the chain value of an
off-diagonal cell is dominated by the diagonal cell of its smaller index, which
is processed earlier (row-major order, ascending columns) and hence already
reflected in the running best.  The extension loops then grow the diagonal
block to the full region. -/

/-- The chain-length value the main loop computes at cell `(i, j)`:
positive exactly on in-region cells whose column appears in the `b2j` index of
the row character. -/
def chGuard (a : List Char) (b2j : Char → List Nat) (alo ahi blo bhi i j : Nat) : Prop :=
  alo ≤ i ∧ i < ahi ∧ j ∈ jsFor b2j (a.getD i ' ') blo bhi

instance chGuardDec (a : List Char) (b2j : Char → List Nat) (alo ahi blo bhi i j : Nat) :
    Decidable (chGuard a b2j alo ahi blo bhi i j) :=
  inferInstanceAs (Decidable (_ ∧ _ ∧ _))

/-- Cell values of the main loop of `find_longest_match`: the value at
`(i, j)` extends the value at `(i - 1, j - 1)` when the cell matches. -/
def chain (a : List Char) (b2j : Char → List Nat) (alo ahi blo bhi : Nat) :
    Nat → Nat → Nat
  | 0, j => if chGuard a b2j alo ahi blo bhi 0 j then 1 else 0
  | i + 1, j =>
    if chGuard a b2j alo ahi blo bhi (i + 1) j then
      match j with
      | 0 => 1
      | j' + 1 => chain a b2j alo ahi blo bhi i j' + 1
    else 0

lemma chain_eq (a : List Char) (b2j : Char → List Nat) (alo ahi blo bhi i j : Nat) :
    chain a b2j alo ahi blo bhi i j =
      if chGuard a b2j alo ahi blo bhi i j then
        (if i = 0 ∨ j = 0 then 1 else chain a b2j alo ahi blo bhi (i - 1) (j - 1) + 1)
      else 0 := by
  match i, j with
  | 0, j => simp [chain]
  | i + 1, 0 => simp [chain]
  | i + 1, j + 1 => simp [chain]

lemma chain_pos (a : List Char) (b2j : Char → List Nat) {alo ahi blo bhi i j : Nat}
    (h : chGuard a b2j alo ahi blo bhi i j) :
    1 ≤ chain a b2j alo ahi blo bhi i j := by
  rw [chain_eq, if_pos h]
  by_cases h0 : i = 0 ∨ j = 0
  · rw [if_pos h0]
  · rw [if_neg h0]; omega

lemma chain_zero_of_not (a : List Char) (b2j : Char → List Nat) {alo ahi blo bhi i j : Nat}
    (h : ¬ chGuard a b2j alo ahi blo bhi i j) :
    chain a b2j alo ahi blo bhi i j = 0 := by
  rw [chain_eq, if_neg h]

lemma mem_positionsOf {b : List Char} {c : Char} {j : Nat} :
    j ∈ positionsOf b c ↔ j < b.length ∧ b.getD j ' ' = c := by
  unfold positionsOf
  simp [List.mem_filter, List.mem_range]

lemma mem_b2jOf_shape {b : List Char} {c : Char} {j : Nat} (hj : j ∈ b2jOf b c) :
    ∀ m : Nat, m < b.length → b.getD m ' ' = c → m ∈ b2jOf b c := by
  intro m hm hmc
  unfold b2jOf at hj ⊢
  by_cases hpop : 200 ≤ b.length ∧ b.length / 100 + 1 < (positionsOf b c).length
  · simp only [if_pos hpop] at hj
    exact absurd hj (List.not_mem_nil j)
  · simp only [if_neg hpop] at hj ⊢
    exact mem_positionsOf.2 ⟨hm, hmc⟩

lemma mem_of_mem_b2jOf {b : List Char} {c : Char} {j : Nat} (hj : j ∈ b2jOf b c) :
    j < b.length ∧ b.getD j ' ' = c := by
  unfold b2jOf at hj
  by_cases hpop : 200 ≤ b.length ∧ b.length / 100 + 1 < (positionsOf b c).length
  · simp only [if_pos hpop] at hj
    exact absurd hj (List.not_mem_nil j)
  · simp only [if_neg hpop] at hj
    exact mem_positionsOf.1 hj

lemma mem_jsFor {b2j : Char → List Nat} {c : Char} {blo bhi j : Nat} :
    j ∈ jsFor b2j c blo bhi ↔ j ∈ b2j c ∧ blo ≤ j ∧ j < bhi := by
  unfold jsFor
  simp [List.mem_filter]

lemma jsFor_sorted (b : List Char) (c : Char) (blo bhi : Nat) :
    (jsFor (b2jOf b) c blo bhi).Pairwise (· < ·) := by
  unfold jsFor b2jOf positionsOf
  by_cases hpop : 200 ≤ b.length ∧
      b.length / 100 + 1 < ((List.range b.length).filter (fun i => b.getD i ' ' == c)).length
  · simp only [if_pos hpop]
    simp
  · simp only [if_neg hpop]
    exact (List.pairwise_lt_range b.length).filter _ |>.filter _

/-- On two equal sequences, the chain value of a cell is dominated by the
diagonal cell of the smaller of the two indices. -/
lemma chain_mono_diag (a : List Char) (alo ahi : Nat) (ha : ahi ≤ a.length) :
    ∀ i j, chain a (b2jOf a) alo ahi alo ahi i j ≤
      chain a (b2jOf a) alo ahi alo ahi (min i j) (min i j) := by
  intro i
  induction i with
  | zero =>
    intro j
    by_cases h : chGuard a (b2jOf a) alo ahi alo ahi 0 j
    · rcases h with ⟨h1, h2, h3⟩
      rcases mem_jsFor.1 h3 with ⟨hb, hblo, hbhi⟩
      have hguard : chGuard a (b2jOf a) alo ahi alo ahi 0 0 := by
        refine ⟨h1, h2, mem_jsFor.2 ⟨?_, h1, h2⟩⟩
        exact mem_b2jOf_shape hb 0 (lt_of_lt_of_le h2 ha) rfl
      have h01 : chain a (b2jOf a) alo ahi alo ahi 0 j = 1 := by
        rw [chain_eq, if_pos ⟨h1, h2, h3⟩, if_pos (Or.inl rfl)]
      rw [h01]
      simpa [Nat.zero_min] using chain_pos a (b2jOf a) hguard
    · rw [chain_zero_of_not a (b2jOf a) h]
      exact Nat.zero_le _
  | succ i ih =>
    intro j
    by_cases h : chGuard a (b2jOf a) alo ahi alo ahi (i + 1) j
    · rcases h with ⟨h1, h2, h3⟩
      rcases mem_jsFor.1 h3 with ⟨hb, hblo, hbhi⟩
      have hcj : a.getD j ' ' = a.getD (i + 1) ' ' := (mem_of_mem_b2jOf hb).2
      set m := min (i + 1) j with hm
      have hchar : a.getD m ' ' = a.getD (i + 1) ' ' := by
        rcases Nat.le_total (i + 1) j with hle | hle
        · rw [hm, Nat.min_eq_left hle]
        · rw [hm, Nat.min_eq_right hle]; exact hcj
      have hmlt : m < ahi := by omega
      have hmlo : alo ≤ m := by omega
      have hguard : chGuard a (b2jOf a) alo ahi alo ahi m m := by
        refine ⟨hmlo, hmlt, mem_jsFor.2 ⟨?_, hmlo, hmlt⟩⟩
        rw [hchar]
        exact mem_b2jOf_shape hb m (lt_of_lt_of_le hmlt ha) hchar
      match j, hm with
      | 0, hm =>
        have h01 : chain a (b2jOf a) alo ahi alo ahi (i + 1) 0 = 1 := by
          rw [chain_eq, if_pos ⟨h1, h2, h3⟩, if_pos (Or.inr rfl)]
        rw [h01]
        exact chain_pos a (b2jOf a) (by simpa [hm] using hguard)
      | j' + 1, hm =>
        have hmpos : m = min i j' + 1 := by omega
        have hstep : chain a (b2jOf a) alo ahi alo ahi (i + 1) (j' + 1) =
            chain a (b2jOf a) alo ahi alo ahi i j' + 1 := by
          rw [chain_eq, if_pos ⟨h1, h2, h3⟩, if_neg (by omega)]
          rfl
        have hdstep : chain a (b2jOf a) alo ahi alo ahi m m =
            chain a (b2jOf a) alo ahi alo ahi (min i j') (min i j') + 1 := by
          rw [chain_eq, if_pos hguard, if_neg (by omega)]
          have : m - 1 = min i j' := by omega
          rw [this]
        rw [hstep, hdstep]
        exact Nat.succ_le_succ (ih j')
    · rw [chain_zero_of_not a (b2jOf a) h]
      exact Nat.zero_le _

lemma flmInner_fst (prev : List (Nat × Nat)) (i : Nat) :
    ∀ js st, (flmInner prev i js st).1 =
      js.map (fun j => (j, (if j = 0 then 0 else lookupJ prev (j - 1)) + 1)) := by
  intro js
  induction js with
  | nil => intro st; rfl
  | cons j js ih =>
    intro st
    simp only [flmInner, List.map_cons]
    rw [ih]

lemma lookupJ_cons (p : Nat × Nat) (l : List (Nat × Nat)) (j : Nat) :
    lookupJ (p :: l) j = if p.1 = j then p.2 else lookupJ l j := by
  unfold lookupJ
  by_cases h : p.1 = j
  · rw [List.find?_cons_of_pos _ (by simpa using h), if_pos h]
  · rw [List.find?_cons_of_neg _ (by simpa using h), if_neg h]

lemma lookupJ_map (f : Nat → Nat) (js : List Nat) (j : Nat) :
    lookupJ (js.map (fun j' => (j', f j'))) j = if j ∈ js then f j else 0 := by
  induction js with
  | nil => simp [lookupJ]
  | cons j0 js ih =>
    rw [List.map_cons, lookupJ_cons]
    by_cases h : j0 = j
    · subst h
      rw [if_pos rfl, if_pos (List.mem_cons_self _ _)]
    · rw [if_neg h, ih]
      by_cases hmem : j ∈ js
      · rw [if_pos hmem, if_pos (List.mem_cons_of_mem _ hmem)]
      · rw [if_neg hmem, if_neg (fun hc => by
          rcases List.mem_cons.1 hc with h' | h'
          · exact h h'.symm
          · exact hmem h')]

/-- The value the inner loop computes at an in-row cell is the chain value. -/
lemma chain_eq_kfun {a : List Char} {b2j : Char → List Nat} {alo ahi blo bhi lo : Nat}
    (prev : List (Nat × Nat)) (hlo : alo ≤ lo) (hlo2 : lo < ahi)
    (hprev : ∀ j', lookupJ prev j' =
      if lo = alo then 0 else chain a b2j alo ahi blo bhi (lo - 1) j')
    {j : Nat} (hj : j ∈ jsFor b2j (a.getD lo ' ') blo bhi) :
    chain a b2j alo ahi blo bhi lo j =
      (if j = 0 then 0 else lookupJ prev (j - 1)) + 1 := by
  have hguard : chGuard a b2j alo ahi blo bhi lo j := ⟨hlo, hlo2, hj⟩
  match j with
  | 0 =>
    rw [chain_eq, if_pos hguard, if_pos (Or.inr rfl), if_pos rfl]
  | j' + 1 =>
    rw [chain_eq, if_pos hguard, if_neg (Nat.succ_ne_zero j')]
    simp only [Nat.add_sub_cancel]
    match lo, hlo, hlo2, hprev, hguard with
    | 0, hlo, hlo2, hprev, hguard =>
      have halo : (0 : Nat) = alo := by omega
      rw [if_pos (Or.inl rfl), hprev j', if_pos halo]
    | l + 1, hlo, hlo2, hprev, hguard =>
      rw [if_neg (by omega), hprev j']
      simp only [Nat.add_sub_cancel]
      by_cases heq : l + 1 = alo
      · rw [if_pos heq]
        rw [chain_zero_of_not a b2j
          (fun hg => by have h1 := hg.1; omega : ¬ chGuard a b2j alo ahi blo bhi l j')]
      · rw [if_neg heq]

/-- On equal sequences the inner loop keeps the best block on the diagonal and
accounts for every diagonal chain value of the rows processed so far. -/
lemma flmInner_diag (a : List Char) (alo ahi lo : Nat) (ha : ahi ≤ a.length)
    (hlo : alo ≤ lo) (hlo2 : lo < ahi) (prev : List (Nat × Nat))
    (hprev : ∀ j', lookupJ prev j' =
      if lo = alo then 0 else chain a (b2jOf a) alo ahi alo ahi (lo - 1) j') :
    ∀ js st,
      (∀ j ∈ js, j ∈ jsFor (b2jOf a) (a.getD lo ' ') alo ahi) →
      js.Pairwise (· < ·) →
      (st = ⟨alo, alo, 0⟩ ∨ st.besti = st.bestj) →
      (∀ m, alo ≤ m → m < lo → chain a (b2jOf a) alo ahi alo ahi m m ≤ st.bestsize) →
      (lo ∈ js ∨ chain a (b2jOf a) alo ahi alo ahi lo lo ≤ st.bestsize) →
      ((flmInner prev lo js st).2 = ⟨alo, alo, 0⟩ ∨
        (flmInner prev lo js st).2.besti = (flmInner prev lo js st).2.bestj) ∧
      (∀ m, alo ≤ m → m ≤ lo →
        chain a (b2jOf a) alo ahi alo ahi m m ≤ (flmInner prev lo js st).2.bestsize) := by
  intro js
  induction js with
  | nil =>
    intro st _ _ hdiag hprevrows hlast
    refine ⟨hdiag, fun m hm1 hm2 => ?_⟩
    rcases Nat.lt_or_ge m lo with h | h
    · exact hprevrows m hm1 h
    · have : m = lo := by omega
      subst this
      rcases hlast with h' | h'
      · exact absurd h' (List.not_mem_nil _)
      · exact h'
  | cons j js ih =>
    intro st hjs hsorted hdiag hprevrows hlast
    have hjmem : j ∈ jsFor (b2jOf a) (a.getD lo ' ') alo ahi :=
      hjs j (List.mem_cons_self j js)
    have hkval : chain a (b2jOf a) alo ahi alo ahi lo j =
        (if j = 0 then 0 else lookupJ prev (j - 1)) + 1 :=
      chain_eq_kfun prev hlo hlo2 hprev hjmem
    simp only [flmInner]
    by_cases hjlo : j = lo
    · subst hjlo
      set k := (if j = 0 then 0 else lookupJ prev (j - 1)) + 1 with hkdef
      have hnotin : j ∉ js := fun hin => by
        have := List.rel_of_pairwise_cons hsorted hin
        omega
      by_cases hup : st.bestsize < k
      · rw [if_pos hup]
        refine ih _ (fun j' hj' => hjs j' (List.mem_cons_of_mem j hj'))
          hsorted.of_cons (Or.inr rfl) ?_ ?_
        · intro m hm1 hm2
          have := hprevrows m hm1 hm2
          dsimp only
          omega
        · right
          dsimp only
          omega
      · rw [if_neg hup]
        refine ih _ (fun j' hj' => hjs j' (List.mem_cons_of_mem j hj'))
          hsorted.of_cons hdiag hprevrows ?_
        right
        omega
    · have hjbounds := mem_jsFor.1 hjmem
      have hblocked : (if j = 0 then 0 else lookupJ prev (j - 1)) + 1 ≤ st.bestsize := by
        have hmono := chain_mono_diag a alo ahi ha lo j
        rw [hkval] at hmono
        rcases Nat.lt_or_ge j lo with hlt | hge
        · have hmin : min lo j = j := by omega
          rw [hmin] at hmono
          exact hmono.trans (hprevrows j hjbounds.2.1 hlt)
        · have hgt : lo < j := by omega
          have hmin : min lo j = lo := by omega
          rw [hmin] at hmono
          have hnot : lo ∉ j :: js := by
            intro hin
            rcases List.mem_cons.1 hin with h | h
            · omega
            · have := List.rel_of_pairwise_cons hsorted h
              omega
          rcases hlast with h | h
          · exact absurd h hnot
          · exact hmono.trans h
      rw [if_neg (by omega)]
      refine ih _ (fun j' hj' => hjs j' (List.mem_cons_of_mem j hj'))
        hsorted.of_cons hdiag hprevrows ?_
      rcases hlast with h | h
      · rcases List.mem_cons.1 h with h' | h'
        · exact absurd h'.symm hjlo
        · exact Or.inl h'
      · exact Or.inr h

/-- On equal sequences the best block of the main loop is the sentinel or
lies on the diagonal. -/
lemma flmRows_diag (a : List Char) (alo ahi : Nat) (ha : ahi ≤ a.length) :
    ∀ n lo prev st, alo ≤ lo → lo + n ≤ ahi →
      (∀ j', lookupJ prev j' =
        if lo = alo then 0 else chain a (b2jOf a) alo ahi alo ahi (lo - 1) j') →
      (st = ⟨alo, alo, 0⟩ ∨ st.besti = st.bestj) →
      (∀ m, alo ≤ m → m < lo → chain a (b2jOf a) alo ahi alo ahi m m ≤ st.bestsize) →
      (flmRows a (b2jOf a) alo ahi (List.range' lo n) prev st = ⟨alo, alo, 0⟩ ∨
        (flmRows a (b2jOf a) alo ahi (List.range' lo n) prev st).besti =
          (flmRows a (b2jOf a) alo ahi (List.range' lo n) prev st).bestj) := by
  intro n
  induction n with
  | zero => intro lo prev st _ _ _ hdiag _; exact hdiag
  | succ n ih =>
    intro lo prev st hlo hhi hprev hdiag hrows
    rw [List.range'_succ]
    simp only [flmRows]
    have hlo2 : lo < ahi := by omega
    have hfirst : lo ∈ jsFor (b2jOf a) (a.getD lo ' ') alo ahi ∨
        chain a (b2jOf a) alo ahi alo ahi lo lo ≤ st.bestsize := by
      by_cases hmem : lo ∈ jsFor (b2jOf a) (a.getD lo ' ') alo ahi
      · exact Or.inl hmem
      · right
        rw [chain_zero_of_not a (b2jOf a) (fun hg => hmem hg.2.2)]
        exact Nat.zero_le _
    have hinner := flmInner_diag a alo ahi lo ha hlo hlo2 prev hprev
      (jsFor (b2jOf a) (a.getD lo ' ') alo ahi) st
      (fun _ hj => hj) (jsFor_sorted a (a.getD lo ' ') alo ahi) hdiag hrows hfirst
    have hnextprev : ∀ j', lookupJ
        (flmInner prev lo (jsFor (b2jOf a) (a.getD lo ' ') alo ahi) st).1 j' =
        if lo + 1 = alo then 0 else chain a (b2jOf a) alo ahi alo ahi (lo + 1 - 1) j' := by
      intro j'
      rw [if_neg (by omega)]
      rw [flmInner_fst, lookupJ_map]
      by_cases hmem : j' ∈ jsFor (b2jOf a) (a.getD lo ' ') alo ahi
      · rw [if_pos hmem]
        exact (chain_eq_kfun prev hlo hlo2 hprev hmem).symm
      · rw [if_neg hmem]
        exact (chain_zero_of_not a (b2jOf a) (fun hg => hmem hg.2.2)).symm
    exact ih (lo + 1) _ _ (by omega) (by omega) hnextprev hinner.1
      (fun m hm1 hm2 => hinner.2 m hm1 (by omega))

lemma extendBack_diag (a : List Char) (alo : Nat) :
    ∀ fuel d s, alo ≤ d → d ≤ fuel →
      extendBack a a alo alo fuel d d s = (alo, alo, s + (d - alo)) := by
  intro fuel
  induction fuel with
  | zero =>
    intro d s h1 h2
    have hd : d = alo := by omega
    subst hd
    have hz : s + (d - d) = s := by omega
    rw [hz]
    rfl
  | succ fuel ih =>
    intro d s h1 h2
    simp only [extendBack]
    by_cases h : alo < d
    · rw [if_pos ⟨h, h, trivial⟩]
      rw [ih (d - 1) (s + 1) (by omega) (by omega)]
      have : s + 1 + (d - 1 - alo) = s + (d - alo) := by omega
      rw [this]
    · rw [if_neg (fun hg => h hg.1)]
      have hda : d = alo := by omega
      subst hda
      have hz : s + (d - d) = s := by omega
      rw [hz]

lemma extendFwd_diag (a : List Char) (ahi x : Nat) :
    ∀ fuel k, ahi - (x + k) ≤ fuel → x + k ≤ ahi →
      extendFwd a a ahi ahi fuel x x k = ahi - x := by
  intro fuel
  induction fuel with
  | zero =>
    intro k h1 h2
    show k = ahi - x
    omega
  | succ fuel ih =>
    intro k h1 h2
    simp only [extendFwd]
    by_cases h : x + k < ahi
    · rw [if_pos ⟨h, h, trivial⟩]
      exact ih (k + 1) (by omega) (by omega)
    · rw [if_neg (fun hg => h hg.1)]
      omega

/-- On two equal sequences `find_longest_match` returns the full region. -/
lemma findLongestMatch_self (a : List Char) (alo ahi : Nat)
    (hle : alo ≤ ahi) (ha : ahi ≤ a.length) :
    findLongestMatch a a (b2jOf a) alo ahi alo ahi = ⟨alo, alo, ahi - alo⟩ := by
  have hwf : stWF alo ahi alo ahi
      (flmRows a (b2jOf a) alo ahi (List.range' alo (ahi - alo)) [] ⟨alo, alo, 0⟩) :=
    flmRows_wf (ahi - alo) alo [] ⟨alo, alo, 0⟩ (le_refl alo) (by omega)
      (fun p hp => absurd hp (List.not_mem_nil p)) (Or.inl rfl)
  have hdiag := flmRows_diag a alo ahi ha (ahi - alo) alo [] ⟨alo, alo, 0⟩
    (le_refl alo) (by omega)
    (fun j' => by rw [if_pos rfl]; rfl)
    (Or.inl rfl)
    (fun m hm1 hm2 => absurd hm2 (by omega))
  simp only [findLongestMatch]
  generalize hstg : flmRows a (b2jOf a) alo ahi (List.range' alo (ahi - alo)) []
    (⟨alo, alo, 0⟩ : FLM) = st at hwf hdiag
  rcases hdiag with hinit | hd
  · rw [hinit]
    dsimp only
    rw [extendBack_diag a alo alo alo 0 (le_refl _) (le_refl _)]
    dsimp only
    have h0 : (0 : Nat) + (alo - alo) = 0 := by omega
    rw [h0, extendFwd_diag a ahi alo ahi 0 (by omega) (by omega)]
  · rcases hwf with hinit | hb
    · rw [hinit]
      dsimp only
      rw [extendBack_diag a alo alo alo 0 (le_refl _) (le_refl _)]
      dsimp only
      have h0 : (0 : Nat) + (alo - alo) = 0 := by omega
      rw [h0, extendFwd_diag a ahi alo ahi 0 (by omega) (by omega)]
    · rw [← hd]
      rw [extendBack_diag a alo st.besti st.besti st.bestsize hb.1 (le_refl _)]
      dsimp only
      rw [extendFwd_diag a ahi alo ahi (st.bestsize + (st.besti - alo)) (by omega) (by omega)]

lemma matchSum_empty_a (a b : List Char) (b2j : Char → List Nat) :
    ∀ fuel x y, matchSum a b b2j fuel x x y y = 0 := by
  intro fuel
  cases fuel with
  | zero => intro x y; rfl
  | succ fuel =>
    intro x y
    simp only [matchSum]
    have hwf := findLongestMatch_wf a b b2j x x y y
    by_cases h0 : (findLongestMatch a b b2j x x y y).bestsize = 0
    · rw [if_pos h0]
    · exact absurd (hwf.2.2 h0) (by omega)

/-- On two equal sequences the total matched size is the full length. -/
lemma matchSum_self (a : List Char) :
    ∀ fuel alo ahi, 1 ≤ fuel → alo ≤ ahi → ahi ≤ a.length →
      matchSum a a (b2jOf a) fuel alo ahi alo ahi = ahi - alo := by
  intro fuel
  cases fuel with
  | zero => intro alo ahi h; omega
  | succ fuel =>
    intro alo ahi _ hle ha
    simp only [matchSum]
    rw [findLongestMatch_self a alo ahi hle ha]
    by_cases h0 : ahi - alo = 0
    · rw [if_pos h0]
      omega
    · rw [if_neg h0]
      have he : alo + (ahi - alo) = ahi := by omega
      dsimp only
      rw [he, matchSum_empty_a, matchSum_empty_a]
      omega

lemma ratioVal_self (a : List Char) : ratioVal a a = 1 := by
  unfold ratioVal
  by_cases h : a.length + a.length = 0
  · rw [if_pos h]
  · rw [if_neg h]
    rw [matchSum_self a (a.length + a.length) 0 a.length (by omega) (by omega) (le_refl _)]
    have hsub : a.length - 0 = a.length := rfl
    rw [hsub]
    have hpos : (0 : ℚ) < ((a.length + a.length : ℕ) : ℚ) := by
      exact_mod_cast Nat.pos_of_ne_zero h
    rw [div_eq_one_iff_eq (ne_of_gt hpos)]
    push_cast
    ring

/-- `_sim` of a string with itself is 1. -/
lemma sim_self (s : String) : sim s s = 1 := ratioVal_self _

/-- The ratio against an empty second sequence is 0 when the first is not empty. -/
lemma ratioVal_nil_right {s : List Char} (hs : s ≠ []) : ratioVal s [] = 0 := by
  unfold ratioVal
  have hlen : s.length + ([] : List Char).length ≠ 0 := by
    simp only [List.length_nil, Nat.add_zero]
    intro hc
    exact hs (List.length_eq_zero.1 hc)
  rw [if_neg hlen]
  have hM := matchSum_le s [] (b2jOf []) (s.length + ([] : List Char).length)
    0 s.length 0 ([] : List Char).length
  have hM0 : matchSum s [] (b2jOf []) (s.length + ([] : List Char).length)
      0 s.length 0 ([] : List Char).length = 0 := by
    simp only [List.length_nil] at hM ⊢
    omega
  rw [hM0]
  norm_num

/-! ## Claim support: fair probabilities -/

lemma dictInsert_mem {d : List (String × ℚ)} {k : String} {v : ℚ} {p : String × ℚ}
    (hp : p ∈ dictInsert d k v) : p ∈ d ∨ (p.1 = k ∧ p.2 = v) := by
  unfold dictInsert at hp
  by_cases h : d.any (fun q => q.1 == k)
  · rw [if_pos h] at hp
    rcases List.mem_map.1 hp with ⟨q, hq, hqe⟩
    by_cases hqk : q.1 == k
    · rw [if_pos hqk] at hqe
      right
      rw [← hqe]
      exact ⟨rfl, rfl⟩
    · rw [if_neg hqk] at hqe
      exact Or.inl (hqe ▸ hq)
  · rw [if_neg h] at hp
    rcases List.mem_append.1 hp with h' | h'
    · exact Or.inl h'
    · right
      rcases List.mem_singleton.1 h' with rfl
      exact ⟨rfl, rfl⟩

lemma dictInsert_ne_nil (d : List (String × ℚ)) (k : String) (v : ℚ) :
    dictInsert d k v ≠ [] := by
  unfold dictInsert
  by_cases h : d.any (fun q => q.1 == k)
  · rw [if_pos h]
    cases d with
    | nil => simp at h
    | cons q d => simp
  · rw [if_neg h]
    simp

lemma rawDict_mem : ∀ (outs : List BmOutcome) (d : List (String × ℚ)) (p : String × ℚ),
    p ∈ outs.foldl (fun d o => dictInsert d o.name (if 1 < o.price then 1 / o.price else 0)) d →
    p ∈ d ∨ ∃ o ∈ outs, p.1 = o.name ∧ p.2 = (if 1 < o.price then 1 / o.price else 0) := by
  intro outs
  induction outs with
  | nil => intro d p hp; exact Or.inl hp
  | cons o outs ih =>
    intro d p hp
    rcases ih _ p hp with h | ⟨o', ho', h1, h2⟩
    · rcases dictInsert_mem h with h' | h'
      · exact Or.inl h'
      · exact Or.inr ⟨o, List.mem_cons_self o outs, h'⟩
    · exact Or.inr ⟨o', List.mem_cons_of_mem o ho', h1, h2⟩

lemma rawDict_ne_nil : ∀ (outs : List BmOutcome) (d : List (String × ℚ)),
    ¬(outs = [] ∧ d = []) →
    outs.foldl (fun d o => dictInsert d o.name (if 1 < o.price then 1 / o.price else 0)) d ≠ [] := by
  intro outs
  induction outs with
  | nil =>
    intro d h
    simp only [List.foldl_nil]
    intro hc
    exact h ⟨rfl, hc⟩
  | cons o outs ih =>
    intro d _
    simp only [List.foldl_cons]
    apply ih
    intro ⟨_, hc⟩
    exact dictInsert_ne_nil d o.name _ hc

lemma list_sum_div (l : List ℚ) (c : ℚ) : (l.map (fun x => x / c)).sum = l.sum / c := by
  induction l with
  | nil => simp
  | cons x l ih => simp [ih, add_div]

/-! ## Claim support: the outcome matcher loops -/

/-- The best name/score of `find_matching_outcome` either stays put or comes
from a processed outcome, with the score the similarity of that name. -/
lemma fmoAux_result (label : String) : ∀ (os : List BmOutcome) (st : Option String × ℚ),
    fmoAux label os st = st ∨
      ∃ o ∈ os, (fmoAux label os st).1 = some o.name ∧
        (fmoAux label os st).2 = sim label o.name := by
  intro os
  induction os with
  | nil => intro st; exact Or.inl rfl
  | cons o os ih =>
    intro st
    simp only [fmoAux]
    by_cases h : st.2 < sim label o.name
    · rw [if_pos h]
      rcases ih (some o.name, sim label o.name) with h' | ⟨o', ho', h1, h2⟩
      · right
        refine ⟨o, List.mem_cons_self o os, ?_, ?_⟩ <;> rw [h']
      · exact Or.inr ⟨o', List.mem_cons_of_mem o ho', h1, h2⟩
    · rw [if_neg h]
      rcases ih st with h' | ⟨o', ho', h1, h2⟩
      · exact Or.inl h'
      · exact Or.inr ⟨o', List.mem_cons_of_mem o ho', h1, h2⟩

/-- The running best score of `find_matching_outcome` dominates the similarity
of every processed outcome and never decreases. -/
lemma fmoAux_ge (label : String) : ∀ (os : List BmOutcome) (st : Option String × ℚ),
    st.2 ≤ (fmoAux label os st).2 ∧
      ∀ o ∈ os, sim label o.name ≤ (fmoAux label os st).2 := by
  intro os
  induction os with
  | nil => intro st; exact ⟨le_refl _, fun o ho => absurd ho (List.not_mem_nil o)⟩
  | cons o os ih =>
    intro st
    simp only [fmoAux]
    by_cases h : st.2 < sim label o.name
    · rw [if_pos h]
      have := ih (some o.name, sim label o.name)
      refine ⟨le_of_lt (lt_of_lt_of_le h this.1), fun o' ho' => ?_⟩
      rcases List.mem_cons.1 ho' with rfl | ho'
      · exact this.1
      · exact this.2 o' ho'
    · rw [if_neg h]
      have := ih st
      refine ⟨this.1, fun o' ho' => ?_⟩
      rcases List.mem_cons.1 ho' with rfl | ho'
      · exact le_trans (not_lt.1 h) this.1
      · exact this.2 o' ho'

/-! ## Claim support: the best-event fold is a first-argmax selection -/

/-- The maximal event score over a collection, floored at the initial 0. -/
def maxEventScore (pm : MarketRecord) (evs : List OddsEvent) : ℚ :=
  evs.foldr (fun e m => max (eventScore pm e) m) 0

lemma maxEventScore_nonneg (pm : MarketRecord) (evs : List OddsEvent) :
    0 ≤ maxEventScore pm evs := by
  induction evs with
  | nil => exact le_refl 0
  | cons e t ih => exact le_trans ih (le_max_right _ _)

lemma eventScore_nonneg (pm : MarketRecord) (e : OddsEvent) : 0 ≤ eventScore pm e := by
  unfold eventScore
  have hbase : (0 : ℚ) ≤ max (max (max (sim pm.question (event_text e))
      (sim pm.question e.home_team)) (sim pm.question e.away_team))
      (sim pm.question e.sport_title) :=
    le_trans (sim_nonneg _ _) (le_max_right _ _)
  by_cases h : pm.outcomes.any (fun o => decide (3 < o.length) && lowerInfix o (event_text e))
  · rw [if_pos h]; linarith
  · rw [if_neg h]; exact hbase

lemma eventScore_le (pm : MarketRecord) (e : OddsEvent) : eventScore pm e ≤ 112/100 := by
  unfold eventScore
  have hbase : max (max (max (sim pm.question (event_text e))
      (sim pm.question e.home_team)) (sim pm.question e.away_team))
      (sim pm.question e.sport_title) ≤ 1 :=
    max_le (max_le (max_le (sim_le_one _ _) (sim_le_one _ _)) (sim_le_one _ _)) (sim_le_one _ _)
  by_cases h : pm.outcomes.any (fun o => decide (3 < o.length) && lowerInfix o (event_text e))
  · rw [if_pos h]; linarith
  · rw [if_neg h]; linarith

lemma maxEventScore_le (pm : MarketRecord) (evs : List OddsEvent) :
    maxEventScore pm evs ≤ 112/100 := by
  induction evs with
  | nil => norm_num [maxEventScore]
  | cons e t ih => exact max_le (eventScore_le pm e) ih

/-- The best-tracking loop of `find_best_event` computes the first argmax. -/
lemma fbeAux_spec (pm : MarketRecord) : ∀ (evs : List OddsEvent) (b : Option OddsEvent)
    (s : ℚ), 0 ≤ s →
    fbeAux pm evs (b, s) =
      if maxEventScore pm evs ≤ s then (b, s)
      else (evs.find? (fun e => eventScore pm e == maxEventScore pm evs),
        maxEventScore pm evs) := by
  intro evs
  induction evs with
  | nil =>
    intro b s hs
    simp only [fbeAux, maxEventScore, List.foldr_nil]
    rw [if_pos hs]
  | cons e t ih =>
    intro b s hs
    have hme : maxEventScore pm (e :: t) = max (eventScore pm e) (maxEventScore pm t) := rfl
    simp only [fbeAux]
    by_cases h : s < eventScore pm e
    · rw [if_pos h]
      rw [ih (some e) (eventScore pm e) (le_trans hs (le_of_lt h))]
      by_cases hmt : maxEventScore pm t ≤ eventScore pm e
      · rw [if_pos hmt, hme, max_eq_left hmt, if_neg (not_le.2 h)]
        rw [List.find?_cons_of_pos _ (by simp)]
      · have hlt : eventScore pm e < maxEventScore pm t := not_le.1 hmt
        rw [if_neg hmt, hme, max_eq_right (le_of_lt hlt),
          if_neg (not_le.2 (lt_trans h hlt))]
        rw [List.find?_cons_of_neg _ (by simp; exact ne_of_lt hlt)]
    · have hes : eventScore pm e ≤ s := not_lt.1 h
      rw [if_neg h]
      rw [ih b s hs, hme]
      by_cases hmt : maxEventScore pm t ≤ s
      · rw [if_pos hmt, if_pos (max_le hes hmt)]
      · have hlt : s < maxEventScore pm t := not_le.1 hmt
        rw [if_neg hmt, if_neg (not_le.2 (lt_of_lt_of_le hlt (le_max_right _ _)))]
        rw [max_eq_right (le_trans hes (le_of_lt hlt))]
        rw [List.find?_cons_of_neg _ (by simp; exact ne_of_lt (lt_of_le_of_lt hes hlt))]

/-- The first-argmax description of `find_best_event`, following the wording
of the specification: score every event, take the maximal score, return the
first event attaining it together with the score when it reaches the
threshold, and `(none, 0)` otherwise. -/
def specFindBest (pm : MarketRecord) (evs : List OddsEvent) (threshold : ℚ) :
    Option OddsEvent × ℚ :=
  if threshold ≤ maxEventScore pm evs then
    (evs.find? (fun e => eventScore pm e == maxEventScore pm evs), maxEventScore pm evs)
  else (none, 0)

/-! ## Claim support: the outright matcher fold -/

/-- Eligibility of a record for the outright pass: contains `"Yes"` with a
probability at its index. -/
def eligibleYes (pm : MarketRecord) : Bool :=
  pm.outcomes.contains "Yes" && decide (pyIndex "Yes" pm.outcomes < pm.probabilities.length)

/-- The probability at the index of the first `"Yes"` outcome. -/
def yesProb (pm : MarketRecord) : ℚ :=
  pm.probabilities.getD (pyIndex "Yes" pm.outcomes) 0

/-- The maximal outright score over a collection, floored at the initial 0. -/
def maxPolyScore (c : String) (pms : List MarketRecord) : ℚ :=
  pms.foldr (fun pm m => max (polyScore c pm) m) 0

lemma polyScore_nonneg (c : String) (pm : MarketRecord) : 0 ≤ polyScore c pm := by
  unfold polyScore
  exact le_trans (sim_nonneg _ _) (le_max_left _ _)

/-- The best-tracking loop of `find_poly_for_candidate` computes the first
argmax over the eligible records. -/
lemma fpcAux_spec (c : String) : ∀ (pms : List MarketRecord) (b : Option MarketRecord)
    (p : Option ℚ) (s : ℚ), 0 ≤ s →
    (maxPolyScore c (pms.filter eligibleYes) ≤ s → fpcAux c pms (b, p, s) = (b, p, s)) ∧
    (s < maxPolyScore c (pms.filter eligibleYes) →
      ∃ pm, (pms.filter eligibleYes).find?
          (fun pm' => polyScore c pm' == maxPolyScore c (pms.filter eligibleYes)) = some pm ∧
        fpcAux c pms (b, p, s) =
          (some pm, some (yesProb pm), maxPolyScore c (pms.filter eligibleYes))) := by
  intro pms
  induction pms with
  | nil =>
    intro b p s hs
    refine ⟨fun _ => rfl, fun hlt => ?_⟩
    simp only [List.filter_nil, maxPolyScore, List.foldr_nil] at hlt
    exact absurd hlt (not_lt.2 hs)
  | cons pm pms ih =>
    intro b p s hs
    by_cases helig : eligibleYes pm
    · have hparts : pm.outcomes.contains "Yes" = true ∧
          pyIndex "Yes" pm.outcomes < pm.probabilities.length := by
        have h2 := helig
        unfold eligibleYes at h2
        rw [Bool.and_eq_true] at h2
        exact ⟨h2.1, by simpa using h2.2⟩
      have hcont : pm.outcomes.contains "Yes" = true := hparts.1
      have hidx : pyIndex "Yes" pm.outcomes < pm.probabilities.length := hparts.2
      have hfil : (pm :: pms).filter eligibleYes = pm :: pms.filter eligibleYes := by
        simp [List.filter_cons, helig]
      have hm : maxPolyScore c ((pm :: pms).filter eligibleYes) =
          max (polyScore c pm) (maxPolyScore c (pms.filter eligibleYes)) := by
        rw [hfil]; rfl
      have hstep : fpcAux c (pm :: pms) (b, p, s) =
          fpcAux c pms (if s < polyScore c pm
            then (some pm, some (yesProb pm), polyScore c pm) else (b, p, s)) := by
        simp only [fpcAux, hcont, if_pos hidx]
        by_cases h : s < polyScore c pm
        · rw [if_pos h, if_pos h]
          rfl
        · rw [if_neg h, if_neg h]
      rw [hstep, hm, hfil]
      by_cases h : s < polyScore c pm
      · rw [if_pos h]
        have hs' : (0 : ℚ) ≤ polyScore c pm := polyScore_nonneg c pm
        constructor
        · intro hle
          exact absurd (le_trans (le_max_left _ _) hle) (not_le.2 h)
        · intro _
          by_cases hmt : maxPolyScore c (pms.filter eligibleYes) ≤ polyScore c pm
          · have := (ih (some pm) (some (yesProb pm)) (polyScore c pm) hs').1 hmt
            refine ⟨pm, ?_, ?_⟩
            · rw [max_eq_left hmt]
              exact List.find?_cons_of_pos _ (by simp)
            · rw [this, max_eq_left hmt]
          · have hlt : polyScore c pm < maxPolyScore c (pms.filter eligibleYes) :=
              not_le.1 hmt
            obtain ⟨pm', hfind, heq⟩ :=
              (ih (some pm) (some (yesProb pm)) (polyScore c pm) hs').2 hlt
            refine ⟨pm', ?_, ?_⟩
            · rw [max_eq_right (le_of_lt hlt)]
              rw [List.find?_cons_of_neg _ (by simp; exact ne_of_lt hlt)]
              exact hfind
            · rw [heq, max_eq_right (le_of_lt hlt)]
      · have hps : polyScore c pm ≤ s := not_lt.1 h
        rw [if_neg h]
        constructor
        · intro hle
          exact (ih b p s hs).1 (le_trans (le_max_right _ _) hle)
        · intro hlt
          have hmt : s < maxPolyScore c (pms.filter eligibleYes) := by
            rcases max_cases (polyScore c pm) (maxPolyScore c (pms.filter eligibleYes)) with
              ⟨hcase, _⟩ | ⟨hcase, _⟩
            · rw [hcase] at hlt
              exact absurd hlt (not_lt.2 hps)
            · rw [hcase] at hlt
              exact hlt
          obtain ⟨pm', hfind, heq⟩ := (ih b p s hs).2 hmt
          have hmax : max (polyScore c pm) (maxPolyScore c (pms.filter eligibleYes)) =
              maxPolyScore c (pms.filter eligibleYes) :=
            max_eq_right (le_trans hps (le_of_lt hmt))
          refine ⟨pm', ?_, ?_⟩
          · rw [hmax]
            rw [List.find?_cons_of_neg _
              (by simp; exact ne_of_lt (lt_of_le_of_lt hps hmt))]
            exact hfind
          · rw [hmax]
            exact heq
    · have hfil : (pm :: pms).filter eligibleYes = pms.filter eligibleYes := by
        simp [List.filter_cons, helig]
      have hstep : fpcAux c (pm :: pms) (b, p, s) = fpcAux c pms (b, p, s) := by
        simp only [fpcAux]
        by_cases h : s < polyScore c pm
        · rw [if_pos h]
          by_cases hcont : pm.outcomes.contains "Yes"
          · have hidx : ¬ pyIndex "Yes" pm.outcomes < pm.probabilities.length := by
              intro hc
              exact helig (by
                unfold eligibleYes
                rw [Bool.and_eq_true]
                exact ⟨hcont, by simpa using hc⟩)
            rw [if_pos hcont, if_neg hidx]
          · rw [if_neg hcont]
        · rw [if_neg h]
      rw [hstep, hfil]
      exact ih b p s hs

/-- The first-argmax description of `find_poly_for_candidate`, following the
wording of the specification: among the records containing `"Yes"` with a
corresponding probability, return the first one attaining the maximal score
together with its `"Yes"` probability when the maximum reaches the threshold,
and `(none, none)` otherwise. -/
def specFindPoly (c : String) (pms : List MarketRecord) (threshold : ℚ) :
    Option MarketRecord × Option ℚ :=
  let elig := pms.filter eligibleYes
  let M := maxPolyScore c elig
  if threshold ≤ M then
    match elig.find? (fun pm => polyScore c pm == M) with
    | some pm => (some pm, some (yesProb pm))
    | none => (none, none)
  else (none, none)

/-! ## Claim support: sorting and deduplication -/

/-- Recursive form of the first-occurrence deduplication by key. -/
def dedupFirst (seen : List (String × String × String)) : List Alert → List Alert
  | [] => []
  | a :: rest =>
    if alertKey a ∈ seen then dedupFirst seen rest
    else a :: dedupFirst (alertKey a :: seen) rest

lemma pyDedup_eq : ∀ (l : List Alert) (seen : List (String × String × String))
    (acc : List Alert), pyDedup seen acc l = acc ++ dedupFirst seen l := by
  intro l
  induction l with
  | nil => intro seen acc; simp [pyDedup, dedupFirst]
  | cons a t ih =>
    intro seen acc
    simp only [pyDedup, dedupFirst]
    by_cases h : alertKey a ∈ seen
    · rw [if_pos h, if_pos h, ih]
    · rw [if_neg h, if_neg h, ih]
      simp

lemma dedupFirst_mem : ∀ (l : List Alert) (seen : List (String × String × String))
    (x : Alert), x ∈ dedupFirst seen l → x ∈ l ∧ alertKey x ∉ seen := by
  intro l
  induction l with
  | nil => intro seen x hx; exact absurd hx (List.not_mem_nil x)
  | cons a t ih =>
    intro seen x hx
    simp only [dedupFirst] at hx
    by_cases h : alertKey a ∈ seen
    · rw [if_pos h] at hx
      have := ih seen x hx
      exact ⟨List.mem_cons_of_mem a this.1, this.2⟩
    · rw [if_neg h] at hx
      rcases List.mem_cons.1 hx with rfl | hx'
      · exact ⟨List.mem_cons_self _ _, h⟩
      · have := ih _ x hx'
        exact ⟨List.mem_cons_of_mem a this.1,
          fun hc => this.2 (List.mem_cons_of_mem _ hc)⟩

lemma dedupFirst_keys : ∀ (l : List Alert) (seen : List (String × String × String)),
    (dedupFirst seen l).Pairwise (fun a b => alertKey a ≠ alertKey b) := by
  intro l
  induction l with
  | nil => intro seen; exact List.Pairwise.nil
  | cons a t ih =>
    intro seen
    simp only [dedupFirst]
    by_cases h : alertKey a ∈ seen
    · rw [if_pos h]; exact ih seen
    · rw [if_neg h]
      refine List.Pairwise.cons (fun b hb => ?_) (ih _)
      have := (dedupFirst_mem t _ b hb).2
      intro hc
      exact this (hc ▸ List.mem_cons_self _ _)

lemma dedupFirst_max : ∀ (l : List Alert),
    l.Pairwise (fun a b => |b.delta| ≤ |a.delta|) →
    ∀ (seen : List (String × String × String)) (x : Alert), x ∈ dedupFirst seen l →
      ∀ y ∈ l, alertKey y = alertKey x → |y.delta| ≤ |x.delta| := by
  intro l
  induction l with
  | nil => intro _ seen x hx; exact absurd hx (List.not_mem_nil x)
  | cons a t ih =>
    intro hp seen x hx y hy hkey
    simp only [dedupFirst] at hx
    by_cases h : alertKey a ∈ seen
    · rw [if_pos h] at hx
      rcases List.mem_cons.1 hy with rfl | hy'
      · exact absurd (hkey ▸ h) (dedupFirst_mem t seen x hx).2
      · exact ih (hp.of_cons) seen x hx y hy' hkey
    · rw [if_neg h] at hx
      rcases List.mem_cons.1 hx with rfl | hx'
      · rcases List.mem_cons.1 hy with rfl | hy'
        · exact le_refl _
        · exact List.rel_of_pairwise_cons hp hy'
      · rcases List.mem_cons.1 hy with rfl | hy'
        · exact absurd (List.mem_cons.2 (Or.inl hkey.symm))
            (dedupFirst_mem t _ x hx').2
        · exact ih (hp.of_cons) _ x hx' y hy' hkey

lemma insertByAbsDelta_mem (a : Alert) : ∀ (l : List Alert) (x : Alert),
    x ∈ insertByAbsDelta a l ↔ x = a ∨ x ∈ l := by
  intro l
  induction l with
  | nil => intro x; simp [insertByAbsDelta]
  | cons b t ih =>
    intro x
    simp only [insertByAbsDelta]
    by_cases h : |b.delta| ≤ |a.delta|
    · rw [if_pos h]
      simp [List.mem_cons]
    · rw [if_neg h]
      simp only [List.mem_cons, ih]
      tauto

lemma sortByAbsDelta_mem (l : List Alert) (x : Alert) :
    x ∈ sortByAbsDelta l ↔ x ∈ l := by
  induction l with
  | nil => simp [sortByAbsDelta]
  | cons a t ih =>
    simp only [sortByAbsDelta, List.foldr_cons]
    rw [insertByAbsDelta_mem]
    simp only [sortByAbsDelta] at ih
    rw [ih]
    simp [List.mem_cons, eq_comm]

lemma insertByAbsDelta_pairwise (a : Alert) : ∀ (l : List Alert),
    l.Pairwise (fun x y => |y.delta| ≤ |x.delta|) →
    (insertByAbsDelta a l).Pairwise (fun x y => |y.delta| ≤ |x.delta|) := by
  intro l
  induction l with
  | nil => intro _; simp [insertByAbsDelta]
  | cons b t ih =>
    intro hp
    simp only [insertByAbsDelta]
    by_cases h : |b.delta| ≤ |a.delta|
    · rw [if_pos h]
      refine List.Pairwise.cons (fun y hy => ?_) hp
      rcases List.mem_cons.1 hy with rfl | hy'
      · exact h
      · exact le_trans (List.rel_of_pairwise_cons hp hy') h
    · rw [if_neg h]
      refine List.Pairwise.cons (fun y hy => ?_) (ih (hp.of_cons))
      rcases (insertByAbsDelta_mem a t y).1 hy with rfl | hy'
      · exact le_of_lt (not_le.1 h)
      · exact List.rel_of_pairwise_cons hp hy'

lemma sortByAbsDelta_pairwise (l : List Alert) :
    (sortByAbsDelta l).Pairwise (fun x y => |y.delta| ≤ |x.delta|) := by
  induction l with
  | nil => exact List.Pairwise.nil
  | cons a t ih => exact insertByAbsDelta_pairwise a _ ih

/-! ## Claim support: checked index accesses -/

lemma get?_of_lt : ∀ (l : List ℚ) (i : Nat), i < l.length →
    l.get? i = some (l.getD i 0) := by
  intro l
  induction l with
  | nil => intro i hi; simp at hi
  | cons x t ih =>
    intro i hi
    cases i with
    | zero => rfl
    | succ i => exact ih i (by simpa using hi)

/-- Pass-1 row emission with the probability access modelled as a fallible
lookup: `none` would be an out-of-bounds access. -/
def pass1RowChecked (pm : MarketRecord) (match_score : ℚ) (bm_name : String)
    (fair : List (String × ℚ)) (mkt_outcomes : List BmOutcome)
    (i : Nat) (outcome : String) : Option (Option Alert) :=
  if pm.probabilities.length ≤ i then some none
  else
    match pm.probabilities.get? i with
    | none => none
    | some poly_prob =>
      match find_matching_outcome outcome mkt_outcomes (38/100) with
      | (some bm_out, some dec_odds) =>
        if bm_out = "" ∨ dec_odds = 0 then some none
        else
          let bookie_prob := dictGet fair bm_out 0
          some (some
            { question := pm.question
              outcome := outcome
              poly_prob := poly_prob
              bookie_prob := bookie_prob
              decimal_odds := dec_odds
              delta := poly_prob - bookie_prob
              bookmaker := bm_name
              match_score := match_score
              liquidity := pm.liquidity
              volume := pm.volume
              days_to_end := pm.days_to_end
              url := pm.url })
      | _ => some none

/-- The fold of `find_poly_for_candidate` with both index accesses (the
`list.index` call and the probability subscript) modelled as fallible. -/
def fpcAuxChecked (candidate_name : String) :
    List MarketRecord → Option MarketRecord × Option ℚ × ℚ →
      Option (Option MarketRecord × Option ℚ × ℚ)
  | [], st => some st
  | pm :: pms, st =>
    if st.2.2 < polyScore candidate_name pm then
      if pm.outcomes.contains "Yes" then
        if pyIndex "Yes" pm.outcomes < pm.outcomes.length then
          let yes_idx := pyIndex "Yes" pm.outcomes
          if yes_idx < pm.probabilities.length then
            match pm.probabilities.get? yes_idx with
            | none => none
            | some pr =>
              fpcAuxChecked candidate_name pms
                (some pm, some pr, polyScore candidate_name pm)
          else fpcAuxChecked candidate_name pms st
        else none
      else fpcAuxChecked candidate_name pms st
    else fpcAuxChecked candidate_name pms st

/-- `find_poly_for_candidate` with fallible index accesses. -/
def findPolyChecked (candidate_name : String) (poly_markets : List MarketRecord) :
    Option (Option MarketRecord × Option ℚ) :=
  (fpcAuxChecked candidate_name poly_markets (none, none, 0)).map (fun st =>
    if 40/100 ≤ st.2.2 ∧ st.1 ≠ none then (st.1, st.2.1) else (none, none))

lemma pyIndex_lt_of_mem : ∀ (l : List String), l.contains "Yes" = true →
    pyIndex "Yes" l < l.length := by
  intro l
  induction l with
  | nil => intro h; simp at h
  | cons y t ih =>
    intro h
    simp only [pyIndex]
    by_cases hy : y == "Yes"
    · rw [if_pos hy]
      simp
    · rw [if_neg hy]
      have hmem : t.contains "Yes" = true := by
        simp only [List.contains_cons, Bool.or_eq_true] at h
        rcases h with h' | h'
        · exact absurd (by simpa [BEq.comm] using h') hy
        · exact h'
      simpa using ih hmem

lemma pass1RowChecked_eq (pm : MarketRecord) (ms : ℚ) (bm : String)
    (fair : List (String × ℚ)) (os : List BmOutcome) (i : Nat) (outcome : String) :
    pass1RowChecked pm ms bm fair os i outcome =
      some (pass1Row pm ms bm fair os i outcome) := by
  unfold pass1RowChecked pass1Row
  by_cases h : pm.probabilities.length ≤ i
  · rw [if_pos h, if_pos h]
  · rw [if_neg h, if_neg h, get?_of_lt _ _ (by omega)]
    cases hfmo : find_matching_outcome outcome os (38/100) with
    | mk fst snd =>
      cases fst with
      | none => rfl
      | some bm_out =>
        cases snd with
        | none => rfl
        | some dec_odds =>
          by_cases hz : bm_out = "" ∨ dec_odds = 0
          · simp only [if_pos hz]
          · simp only [if_neg hz]

lemma fpcAuxChecked_eq (c : String) : ∀ (pms : List MarketRecord)
    (st : Option MarketRecord × Option ℚ × ℚ),
    fpcAuxChecked c pms st = some (fpcAux c pms st) := by
  intro pms
  induction pms with
  | nil => intro st; rfl
  | cons pm pms ih =>
    intro st
    simp only [fpcAuxChecked, fpcAux]
    by_cases h1 : st.2.2 < polyScore c pm
    · rw [if_pos h1, if_pos h1]
      by_cases h2 : pm.outcomes.contains "Yes"
      · rw [if_pos h2, if_pos h2, if_pos (pyIndex_lt_of_mem _ h2)]
        by_cases h3 : pyIndex "Yes" pm.outcomes < pm.probabilities.length
        · rw [if_pos h3, if_pos h3, get?_of_lt _ _ h3]
          exact ih _
        · rw [if_neg h3, if_neg h3]
          exact ih st
      · rw [if_neg h2, if_neg h2]
        exact ih st
    · rw [if_neg h1, if_neg h1]
      exact ih st

lemma findPolyChecked_eq (c : String) (pms : List MarketRecord) :
    findPolyChecked c pms = some (find_poly_for_candidate c pms (40/100)) := by
  unfold findPolyChecked find_poly_for_candidate
  rw [fpcAuxChecked_eq]
  rfl

lemma pass1Row_skip (pm : MarketRecord) (ms : ℚ) (bm : String)
    (fair : List (String × ℚ)) (os : List BmOutcome) (i : Nat) (outcome : String)
    (h : pm.probabilities.length ≤ i) :
    pass1Row pm ms bm fair os i outcome = none := by
  unfold pass1Row
  rw [if_pos h]

lemma filterMap_enumFrom_skip (pm : MarketRecord) (ms : ℚ) (bm : String)
    (fair : List (String × ℚ)) (os : List BmOutcome) :
    ∀ (l : List String) (k : Nat), pm.probabilities.length ≤ k →
      (List.enumFrom k l).filterMap
        (fun p => pass1Row pm ms bm fair os p.1 p.2) = [] := by
  intro l
  induction l with
  | nil => intro k _; rfl
  | cons o t ih =>
    intro k hk
    simp only [List.enumFrom, List.filterMap_cons]
    rw [pass1Row_skip pm ms bm fair os k o hk]
    exact ih (k + 1) (by omega)

lemma enumFrom_append_eq : ∀ (l1 l2 : List String) (k : Nat),
    List.enumFrom k (l1 ++ l2) = List.enumFrom k l1 ++ List.enumFrom (k + l1.length) l2 := by
  intro l1
  induction l1 with
  | nil => intro l2 k; simp [List.enumFrom]
  | cons x t ih =>
    intro l2 k
    simp only [List.cons_append, List.enumFrom, List.length_cons]
    rw [show t.append l2 = t ++ l2 from rfl, ih]
    have : k + (t.length + 1) = k + 1 + t.length := by omega
    rw [this]

/-- The pass-1 inner loop emits nothing for the outcome indices beyond the
probability list: enumerating the full outcome list and enumerating its
truncation to the probability length produce the same alerts. -/
lemma pass1_trunc (pm : MarketRecord) (ms : ℚ) (bm : String)
    (fair : List (String × ℚ)) (os : List BmOutcome) :
    pm.outcomes.enum.filterMap (fun p => pass1Row pm ms bm fair os p.1 p.2) =
      ((pm.outcomes.take pm.probabilities.length).enum).filterMap
        (fun p => pass1Row pm ms bm fair os p.1 p.2) := by
  have he : ∀ l : List String, List.enum l = List.enumFrom 0 l := fun l => rfl
  rw [he, he]
  conv_lhs => rw [← List.take_append_drop pm.probabilities.length pm.outcomes]
  rw [enumFrom_append_eq, List.filterMap_append]
  have hnil : (List.enumFrom (0 + (pm.outcomes.take pm.probabilities.length).length)
      (pm.outcomes.drop pm.probabilities.length)).filterMap
        (fun p => pass1Row pm ms bm fair os p.1 p.2) = [] := by
    by_cases hc : pm.probabilities.length ≤ pm.outcomes.length
    · apply filterMap_enumFrom_skip
      rw [List.length_take]
      omega
    · rw [List.drop_eq_nil_of_le (by omega)]
      rfl
  rw [hnil, List.append_nil]

/-- Every selection the outright fold makes carries a `"Yes"` outcome with an
in-range probability index. -/
lemma fpcAux_selected (c : String) : ∀ (pms : List MarketRecord)
    (st : Option MarketRecord × Option ℚ × ℚ),
    fpcAux c pms st = st ∨
      ∃ pm ∈ pms, (fpcAux c pms st).1 = some pm ∧
        (fpcAux c pms st).2.1 = some (yesProb pm) ∧
        pm.outcomes.contains "Yes" = true ∧
        pyIndex "Yes" pm.outcomes < pm.probabilities.length := by
  intro pms
  induction pms with
  | nil => intro st; exact Or.inl rfl
  | cons pm pms ih =>
    intro st
    simp only [fpcAux]
    by_cases h1 : st.2.2 < polyScore c pm
    · rw [if_pos h1]
      by_cases h2 : pm.outcomes.contains "Yes"
      · rw [if_pos h2]
        by_cases h3 : pyIndex "Yes" pm.outcomes < pm.probabilities.length
        · rw [if_pos h3]
          rcases ih (some pm, some (pm.probabilities.getD (pyIndex "Yes" pm.outcomes) 0),
              polyScore c pm) with h' | ⟨pm', hm', h1', h2', h3', h4'⟩
          · right
            refine ⟨pm, List.mem_cons_self pm pms, ?_, ?_, h2, h3⟩
            · rw [h']
            · rw [h']
              rfl
          · exact Or.inr ⟨pm', List.mem_cons_of_mem pm hm', h1', h2', h3', h4'⟩
        · rw [if_neg h3]
          rcases ih st with h' | ⟨pm', hm', hrest⟩
          · exact Or.inl h'
          · exact Or.inr ⟨pm', List.mem_cons_of_mem pm hm', hrest⟩
      · rw [if_neg h2]
        rcases ih st with h' | ⟨pm', hm', hrest⟩
        · exact Or.inl h'
        · exact Or.inr ⟨pm', List.mem_cons_of_mem pm hm', hrest⟩
    · rw [if_neg h1]
      rcases ih st with h' | ⟨pm', hm', hrest⟩
      · exact Or.inl h'
      · exact Or.inr ⟨pm', List.mem_cons_of_mem pm hm', hrest⟩

lemma maxPolyScore_nonneg (c : String) (pms : List MarketRecord) :
    0 ≤ maxPolyScore c pms := by
  induction pms with
  | nil => exact le_refl 0
  | cons pm t ih => exact le_trans ih (le_max_right _ _)

/-! ## Concrete inputs used by the claims -/

/-- An event whose composite text coincides with the record question below. -/
def electionEvent : OddsEvent :=
  { sport_title := "Election", home_team := "", away_team := "", bookmakers := [] }

/-- A record whose question equals the event text and whose single outcome
label, longer than 3 characters, occurs in that text. -/
def electionRecord : MarketRecord :=
  { question := "Election", outcomes := ["Election"], probabilities := [1/2]
    liquidity := 0, volume := 0, days_to_end := none, url := "" }

/-- The binary market of the specification example for the outright matcher. -/
def starmerMarket : MarketRecord :=
  { question := "Will Keir Starmer be the next Prime Minister?"
    outcomes := ["Yes", "No"], probabilities := [62/100, 38/100]
    liquidity := 100000, volume := 5000, days_to_end := some 30
    url := "https://polymarket.com/event/next-pm" }

/-! ## Concrete evaluations (kernel-checked) -/

set_option maxRecDepth 16384 in
unseal Rat.mul Rat.add Rat.sub Rat.inv in
lemma simTideDiet : sim "tide" "diet" = 1/4 := by decide

set_option maxRecDepth 16384 in
unseal Rat.mul Rat.add Rat.sub Rat.inv in
lemma simDietTide : sim "diet" "tide" = 1/2 := by decide

set_option maxRecDepth 16384 in
unseal Rat.mul Rat.add Rat.sub Rat.inv in
lemma yesZzzEx :
    find_matching_outcome "yes" [⟨"zzz", 2⟩] (38/100) = (none, none) := by decide

set_option maxRecDepth 16384 in
unseal Rat.mul Rat.add Rat.sub Rat.inv in
lemma findPolyEx :
    find_poly_for_candidate "Keir Starmer" [starmerMarket] (40/100) =
      (some starmerMarket, some (62/100)) := by decide

set_option maxRecDepth 16384 in
unseal Rat.mul Rat.add Rat.sub Rat.inv in
lemma bestEventEx :
    find_best_event electionRecord [electionEvent] (28/100) =
      (some electionEvent, 112/100) := by decide

/-! ## Claim theorems -/

/-- C1: `find_best_event` scores each event as the maximum of the four
similarities plus the fixed 0.12 bonus exactly when a long outcome label
occurs case-insensitively in the composite text, and returns the first event
attaining the maximal score together with that score when the maximum is at
least 0.28, and `(none, 0)` otherwise. -/
theorem C1_find_best_event_first_argmax (pm : MarketRecord) (evs : List OddsEvent) :
    find_best_event pm evs (28/100) = specFindBest pm evs (28/100) := by
  unfold find_best_event specFindBest
  rw [fbeAux_spec pm evs none 0 (le_refl 0)]
  by_cases h0 : maxEventScore pm evs ≤ 0
  · have hm0 : maxEventScore pm evs = 0 :=
      le_antisymm h0 (maxEventScore_nonneg pm evs)
    rw [if_pos h0]
    dsimp only
    rw [if_neg (by norm_num : ¬ (28/100 : ℚ) ≤ 0), if_neg (by rw [hm0]; norm_num)]
  · rw [if_neg h0]

/-- C2 counterexample: on the empty outcome collection every price is
vacuously greater than 1, yet the returned probabilities sum to 0, not 1. -/
theorem C2_fair_probabilities_counterexample :
    (∀ o ∈ ([] : List BmOutcome), 1 < o.price) ∧
      ((fair_probabilities []).map (fun p => p.2)).sum ≠ 1 := by
  constructor
  · intro o ho
    exact absurd ho (List.not_mem_nil o)
  · decide

lemma map_snd_div_sum (l : List (String × ℚ)) (c : ℚ) :
    ((l.map (fun p => (p.1, p.2 / c))).map (fun p => p.2)).sum =
      (l.map (fun p => p.2)).sum / c := by
  induction l with
  | nil => simp
  | cons x t ih =>
    simp only [List.map_cons, List.sum_cons]
    rw [ih, add_div]

/-- C2 amended: `fair_probabilities` maps each name to `1/price` when the
price exceeds 1 and to 0 otherwise, then normalizes by the total when it is
positive; on a NON-EMPTY collection whose prices all exceed 1 the returned
probabilities sum to 1, and when every price is at most 1 every returned
probability is 0 (and no error is raised, the function being total). -/
theorem C2_fair_probabilities_amended :
    (∀ outcomes : List BmOutcome, outcomes ≠ [] → (∀ o ∈ outcomes, 1 < o.price) →
      ((fair_probabilities outcomes).map (fun p => p.2)).sum = 1) ∧
    (∀ outcomes : List BmOutcome, (∀ o ∈ outcomes, o.price ≤ 1) →
      ∀ p ∈ fair_probabilities outcomes, p.2 = 0) := by
  constructor
  · intro outcomes hne hall
    unfold fair_probabilities
    have hpos : ∀ p ∈ rawDict outcomes, 0 < p.2 := by
      intro p hp
      rcases rawDict_mem outcomes [] p hp with h | ⟨o, ho, h1, h2⟩
      · exact absurd h (List.not_mem_nil p)
      · have hgt := hall o ho
        rw [h2, if_pos hgt]
        exact one_div_pos.2 (lt_trans zero_lt_one hgt)
    have hrne : rawDict outcomes ≠ [] := by
      unfold rawDict
      apply rawDict_ne_nil
      intro hc
      exact hne hc.1
    have htot : 0 < ((rawDict outcomes).map (fun p => p.2)).sum := by
      apply List.sum_pos
      · intro x hx
        rcases List.mem_map.1 hx with ⟨p, hp, rfl⟩
        exact hpos p hp
      · intro hc
        rw [List.map_eq_nil_iff] at hc
        exact hrne hc
    rw [if_pos htot, map_snd_div_sum, div_self (ne_of_gt htot)]
  · intro outcomes hall p hp
    unfold fair_probabilities at hp
    have hz : ∀ q ∈ rawDict outcomes, q.2 = 0 := by
      intro q hq
      rcases rawDict_mem outcomes [] q hq with h | ⟨o, ho, h1, h2⟩
      · exact absurd h (List.not_mem_nil q)
      · rw [h2, if_neg (not_lt.2 (hall o ho))]
    have htot : ((rawDict outcomes).map (fun p => p.2)).sum = 0 := by
      apply List.sum_eq_zero
      intro x hx
      rcases List.mem_map.1 hx with ⟨q, hq, rfl⟩
      exact hz q hq
    rw [if_neg (by rw [htot]; exact lt_irrefl 0)] at hp
    exact hz p hp

set_option maxRecDepth 16384 in
unseal Rat.mul Rat.add Rat.sub Rat.inv in
theorem C2_witness :
    ((fair_probabilities [⟨"A", 2⟩, ⟨"B", 4⟩]).map (fun p => p.2)).sum = 1 :=
  C2_fair_probabilities_amended.1 [⟨"A", 2⟩, ⟨"B", 4⟩] (by decide) (by decide)

/-- C3: `find_poly_for_candidate` is the first-argmax selection over the
eligible records described by the specification, and the specification
example (candidate Keir Starmer against the matching binary market) returns
that market with probability 0.62. -/
theorem C3_find_poly_first_argmax :
    (∀ (c : String) (pms : List MarketRecord),
      find_poly_for_candidate c pms (40/100) = specFindPoly c pms (40/100)) ∧
    find_poly_for_candidate "Keir Starmer" [starmerMarket] (40/100) =
      (some starmerMarket, some (62/100)) := by
  constructor
  · intro c pms
    unfold find_poly_for_candidate specFindPoly
    have hspec := fpcAux_spec c pms none none 0 (le_refl 0)
    by_cases h0 : maxPolyScore c (pms.filter eligibleYes) ≤ 0
    · have hm0 : maxPolyScore c (pms.filter eligibleYes) = 0 :=
        le_antisymm h0 (maxPolyScore_nonneg c _)
      rw [hspec.1 h0]
      dsimp only
      rw [if_neg (fun hc => by simp at hc), if_neg (by rw [hm0]; norm_num)]
    · obtain ⟨pm0, hfind, heq⟩ := hspec.2 (not_le.1 h0)
      rw [heq]
      dsimp only
      by_cases ht : (40/100 : ℚ) ≤ maxPolyScore c (pms.filter eligibleYes)
      · rw [if_pos ⟨ht, by simp⟩, if_pos ht, hfind]
      · rw [if_neg (fun hc => ht hc.1), if_neg ht]
  · have h := findPolyEx
    exact h

/-- C4 counterexample: the label `"yes"` against a single outcome with no
textual overlap is rejected even though the list is non-empty and its price
is a plain decimal quote — the binary bypass needs a positive best score to
have recorded a name at all. -/
theorem C4_yes_bypass_counterexample :
    (⟨pyLower "yes".data⟩ : String) = "yes" ∧
      ([⟨"zzz", 2⟩] : List BmOutcome) ≠ [] ∧
      find_matching_outcome "yes" [⟨"zzz", 2⟩] (38/100) = (none, none) := by
  refine ⟨by decide, by decide, yesZzzEx⟩

/-- C4 amended: a label equal to `"yes"` or `"no"` up to case is accepted and
returns the best name with the price of the first outcome carrying that name,
PROVIDED some outcome has positive similarity with the label (otherwise no
best name is ever recorded and `(none, none)` is returned). -/
theorem C4_yes_bypass_amended (label : String) (outs : List BmOutcome)
    (hlab : (⟨pyLower label.data⟩ : String) ∈ ["yes", "no"])
    (hpos : ∃ o ∈ outs, 0 < sim label o.name) :
    ∃ n o, outs.find? (fun o' => o'.name == n) = some o ∧
      find_matching_outcome label outs (38/100) = (some n, some o.price) := by
  obtain ⟨o0, ho0, hs0⟩ := hpos
  have hge := (fmoAux_ge label outs (none, 0)).2 o0 ho0
  have hstpos : 0 < (fmoAux label outs (none, 0)).2 := lt_of_lt_of_le hs0 hge
  rcases fmoAux_result label outs (none, 0) with h' | ⟨o1, ho1, h1, h2⟩
  · rw [h'] at hstpos
    exact absurd hstpos (by norm_num)
  · have hne : o1.name ≠ "" := by
      intro hnil
      rw [hnil] at h2
      have hzero : sim label "" = 0 := by
        have hdata : pyLower label.data = "yes".data ∨ pyLower label.data = "no".data := by
          rcases List.mem_cons.1 hlab with h | h
          · left
            exact congrArg String.data h
          · right
            rcases List.mem_singleton.1 h with h
            exact congrArg String.data h
        have hright : pyStrip (pyLower "".data) = ([] : List Char) := rfl
        unfold sim
        rw [hright]
        rcases hdata with h | h <;> rw [h]
        · exact ratioVal_nil_right (by decide)
        · exact ratioVal_nil_right (by decide)
      rw [hzero] at h2
      rw [h2] at hstpos
      exact absurd hstpos (lt_irrefl 0)
    have hfind : (outs.find? (fun o' => o'.name == o1.name)).isSome := by
      rw [List.find?_isSome]
      exact ⟨o1, ho1, by simp⟩
    obtain ⟨o', ho'⟩ := Option.isSome_iff_exists.1 hfind
    refine ⟨o1.name, o', ho', ?_⟩
    unfold find_matching_outcome
    rw [if_pos (Or.inr hlab), h1]
    dsimp only
    rw [if_pos hne, ho']
    rfl

set_option maxRecDepth 16384 in
unseal Rat.mul Rat.add Rat.sub Rat.inv in
theorem C4_witness :
    ∃ n o, (([⟨"Yes", 2⟩] : List BmOutcome).find? (fun o' => o'.name == n)) = some o ∧
      find_matching_outcome "Yes" [⟨"Yes", 2⟩] (38/100) = (some n, some o.price) :=
  C4_yes_bypass_amended "Yes" [⟨"Yes", 2⟩] (by decide)
    ⟨⟨"Yes", 2⟩, by decide, by decide⟩

/-- C5: the scan output is the emitted signals sorted by descending absolute
delta and then deduplicated by the `(question, outcome, bookmaker)` key
keeping the first occurrence; consequently each key occurs at most once, and
every kept signal has the largest absolute delta among the emitted signals
sharing its key. -/
theorem C5_sort_dedup_invariants (pms : List MarketRecord) (evs : List OddsEvent) :
    runScan pms evs =
      dedupFirst [] (sortByAbsDelta (pass1Alerts pms evs ++ pass2Alerts pms evs)) ∧
    (runScan pms evs).Pairwise (fun a b => alertKey a ≠ alertKey b) ∧
    (∀ x ∈ runScan pms evs, ∀ y ∈ pass1Alerts pms evs ++ pass2Alerts pms evs,
      alertKey y = alertKey x → |y.delta| ≤ |x.delta|) := by
  have heq : runScan pms evs =
      dedupFirst [] (sortByAbsDelta (pass1Alerts pms evs ++ pass2Alerts pms evs)) := by
    unfold runScan
    rw [pyDedup_eq]
    simp
  refine ⟨heq, ?_, ?_⟩
  · rw [heq]
    exact dedupFirst_keys _ _
  · intro x hx y hy hkey
    rw [heq] at hx
    exact dedupFirst_max _ (sortByAbsDelta_pairwise _) [] x hx y
      ((sortByAbsDelta_mem _ y).2 hy) hkey

theorem C5_witness :
    (runScan [] []).Pairwise (fun a b => alertKey a ≠ alertKey b) :=
  (C5_sort_dedup_invariants [] []).2.1

/-- C6: mismatched outcome/probability lengths cannot crash the scan: the
pass-1 row emitter returns nothing for indices beyond the probability list
(and emits exactly what it would emit on the truncated outcome list), both
guarded index accesses are total (their checked variants never fail), and a
record whose `"Yes"` index has no probability is never selected by the
outright matcher. -/
theorem C6_mismatched_lengths_safe :
    (∀ (pm : MarketRecord) (ms : ℚ) (bm : String) (fair : List (String × ℚ))
        (os : List BmOutcome) (i : Nat) (outcome : String),
      pm.probabilities.length ≤ i → pass1Row pm ms bm fair os i outcome = none) ∧
    (∀ (pm : MarketRecord) (ms : ℚ) (bm : String) (fair : List (String × ℚ))
        (os : List BmOutcome),
      pm.outcomes.enum.filterMap (fun p => pass1Row pm ms bm fair os p.1 p.2) =
        ((pm.outcomes.take pm.probabilities.length).enum).filterMap
          (fun p => pass1Row pm ms bm fair os p.1 p.2)) ∧
    (∀ (pm : MarketRecord) (ms : ℚ) (bm : String) (fair : List (String × ℚ))
        (os : List BmOutcome) (i : Nat) (outcome : String),
      pass1RowChecked pm ms bm fair os i outcome =
        some (pass1Row pm ms bm fair os i outcome)) ∧
    (∀ (c : String) (pms : List MarketRecord),
      findPolyChecked c pms = some (find_poly_for_candidate c pms (40/100))) ∧
    (∀ (c : String) (pms : List MarketRecord) (m : MarketRecord) (p : Option ℚ),
      find_poly_for_candidate c pms (40/100) = (some m, p) →
        m.outcomes.contains "Yes" = true ∧
        pyIndex "Yes" m.outcomes < m.probabilities.length ∧ p = some (yesProb m)) := by
  refine ⟨pass1Row_skip, pass1_trunc, pass1RowChecked_eq, findPolyChecked_eq, ?_⟩
  intro c pms m p h
  unfold find_poly_for_candidate at h
  by_cases hc : (40/100 : ℚ) ≤ (fpcAux c pms (none, none, 0)).2.2 ∧
      (fpcAux c pms (none, none, 0)).1 ≠ none
  · rw [if_pos hc] at h
    have h1 : (fpcAux c pms (none, none, 0)).1 = some m := congrArg Prod.fst h
    have h2 : (fpcAux c pms (none, none, 0)).2.1 = p := congrArg Prod.snd h
    rcases fpcAux_selected c pms (none, none, 0) with h' | ⟨pm', hm', e1, e2, e3, e4⟩
    · rw [h'] at h1
      exact absurd h1 (by simp)
    · rw [e1] at h1
      have hmm : pm' = m := by simpa using h1
      subst hmm
      rw [e2] at h2
      exact ⟨e3, e4, h2.symm⟩
  · rw [if_neg hc] at h
    have := congrArg Prod.fst h
    exact absurd this (by simp)

theorem C6_witness :
    pass1Row electionRecord (9/10) "Bookie" [] [] 3 "Election" = none :=
  C6_mismatched_lengths_safe.1 electionRecord (9/10) "Bookie" [] [] 3 "Election"
    (by decide)

/-- C7 counterexample: the similarity primitive is not symmetric — the pair
`"tide"`, `"diet"` scores 0.25 one way and 0.5 the other. -/
theorem C7_sim_asymmetry_counterexample :
    sim "tide" "diet" = 1/4 ∧ sim "diet" "tide" = 1/2 ∧
      sim "tide" "diet" ≠ sim "diet" "tide" :=
  ⟨simTideDiet, simDietTide, by rw [simTideDiet, simDietTide]; norm_num⟩

/-- C7 amended: the similarity primitive always lies in `[0, 1]`, equals 1 on
any string compared with itself, and equals 1 on two empty strings; it is NOT
symmetric in general. -/
theorem C7_sim_range_refl_empty :
    (∀ a b : String, 0 ≤ sim a b ∧ sim a b ≤ 1) ∧ (∀ a : String, sim a a = 1) ∧
      sim "" "" = 1 :=
  ⟨fun a b => ⟨sim_nonneg a b, sim_le_one a b⟩, sim_self, sim_self ""⟩

/-- C8: the scan output is a pure function of the two input collections —
equal inputs give equal, identically-ordered signal lists. -/
theorem C8_runScan_deterministic (pms pms' : List MarketRecord)
    (evs evs' : List OddsEvent) (h1 : pms = pms') (h2 : evs = evs') :
    runScan pms evs = runScan pms' evs' := by
  rw [h1, h2]

theorem C8_witness : runScan [] [] = runScan [] [] :=
  C8_runScan_deterministic [] [] [] [] rfl rfl

/-- C9: whenever `find_matching_outcome` returns a name, the price component
is the price of the first listed outcome carrying that name — `(name, none)`
is never returned, the best name always coming from the outcome list. -/
theorem C9_accepted_name_has_price (label : String) (outs : List BmOutcome)
    (th : ℚ) (n : String)
    (h : (find_matching_outcome label outs th).1 = some n) :
    ∃ o, outs.find? (fun o' => o'.name == n) = some o ∧
      (find_matching_outcome label outs th).2 = some o.price := by
  have hres := fmoAux_result label outs (none, 0)
  unfold find_matching_outcome at h ⊢
  by_cases hc : th ≤ (fmoAux label outs (none, 0)).2 ∨
      (⟨pyLower label.data⟩ : String) ∈ ["yes", "no"]
  · rw [if_pos hc] at h ⊢
    rcases hres with h' | ⟨o, ho, h1', h2'⟩
    · rw [h'] at h
      exact absurd h (by simp)
    · rw [h1'] at h ⊢
      dsimp only at h ⊢
      by_cases hm : o.name ≠ ""
      · rw [if_pos hm] at h ⊢
        have hmn : o.name = n := by simpa using h
        rw [← hmn]
        have hfind : (outs.find? (fun o' => o'.name == o.name)).isSome := by
          rw [List.find?_isSome]
          exact ⟨o, ho, by simp⟩
        obtain ⟨o', ho'⟩ := Option.isSome_iff_exists.1 hfind
        refine ⟨o', ho', ?_⟩
        rw [ho']
        rfl
      · rw [if_neg hm] at h
        exact absurd h (by simp)
  · rw [if_neg hc] at h
    exact absurd h (by simp)

set_option maxRecDepth 16384 in
unseal Rat.mul Rat.add Rat.sub Rat.inv in
theorem C9_witness :
    ∃ o, ([⟨"Boris Johnson", 3⟩, ⟨"Keir Starmer", 2⟩] : List BmOutcome).find?
        (fun o' => o'.name == "Boris Johnson") = some o ∧
      (find_matching_outcome "Boris Johnson"
        [⟨"Boris Johnson", 3⟩, ⟨"Keir Starmer", 2⟩] (38/100)).2 = some o.price :=
  C9_accepted_name_has_price "Boris Johnson"
    [⟨"Boris Johnson", 3⟩, ⟨"Keir Starmer", 2⟩] (38/100) "Boris Johnson" (by decide)

/-- C10: the score returned by `find_best_event` never exceeds 1.12 (one from
the similarity bound plus the 0.12 bonus), and on the concrete input whose
question matches the event text exactly, with a bonus-earning outcome label,
the returned score is 1.12, which exceeds 1. -/
theorem C10_score_bounds :
    (∀ (pm : MarketRecord) (evs : List OddsEvent),
      (find_best_event pm evs (28/100)).2 ≤ 112/100) ∧
    find_best_event electionRecord [electionEvent] (28/100) =
      (some electionEvent, 112/100) ∧
    (1 : ℚ) < 112/100 := by
  refine ⟨?_, bestEventEx, by norm_num⟩
  intro pm evs
  simp only [find_best_event]
  rw [fbeAux_spec pm evs none 0 (le_refl 0)]
  by_cases h0 : maxEventScore pm evs ≤ 0
  · rw [if_pos h0]
    dsimp only
    rw [if_neg (by norm_num)]
    norm_num
  · rw [if_neg h0]
    dsimp only
    by_cases ht : (28/100 : ℚ) ≤ maxEventScore pm evs
    · rw [if_pos ht]
      exact maxEventScore_le pm evs
    · rw [if_neg ht]
      norm_num

end EdgeScanner
